import Mathlib

/-!
Shallow embedding of the Go package `enum` (reflection-driven symbol
enumeration, formatting and parsing for enum-like types), together with the
parts of the Go standard library the package calls: `strconv.FormatUint`,
`strconv.ParseUint`, `strconv.ParseInt` (base 0, with prefix detection and
digit-separator underscores), `strings.Split`, `strings.TrimSpace` and
`strings.ToLower`.

Strings are modelled as lists of characters (`Str`).  Go's byte-level loops
agree with this character-level model on ASCII data, which covers every enum
symbol name (exported Go method names) and every numeric rendering involved.
An enum-like type is modelled by the data reflection exposes of it: its name,
signedness, bit width, and the ordered list of symbol methods (reflection
lists the exported methods of a type sorted by name).
-/

abbrev Str := List Char

/-- ASCII lowercasing of one character: the shared core of `strings.ToLower`
and of `strconv`'s `lower` on the ASCII range, where all relevant data lives. -/
def asciiLower (c : Char) : Char :=
  if 65 ≤ c.toNat ∧ c.toNat ≤ 90 then Char.ofNat (c.toNat + 32) else c

/-- An upper-case ASCII letter, the first character of an exported Go method name. -/
def isGoUpper (c : Char) : Bool := 65 ≤ c.toNat ∧ c.toNat ≤ 90

/-- A character allowed after the first one in an ASCII Go identifier. -/
def isGoIdentChar (c : Char) : Bool :=
  (65 ≤ c.toNat ∧ c.toNat ≤ 90) ∨ (97 ≤ c.toNat ∧ c.toNat ≤ 122) ∨
    (48 ≤ c.toNat ∧ c.toNat ≤ 57) ∨ c = '_'

/-- A valid exported Go method name (restricted to ASCII): an upper-case ASCII
letter followed by ASCII letters, digits or underscores.  Reflection only
surfaces exported methods, so every enum symbol name has this shape. -/
def isExportedName (s : Str) : Bool :=
  match s with
  | [] => false
  | c :: rest => isGoUpper c && rest.all isGoIdentChar

namespace strconv

/-- Digit characters of `strconv`: "0123456789abcdefghijklmnopqrstuvwxyz". -/
def digitChar (d : Nat) : Char :=
  if d < 10 then Char.ofNat (48 + d) else Char.ofNat (87 + d)

/-- The digit-emitting loop of `strconv.FormatUint` (append `u % base`, continue
with `u / base`, until the value is below the base).  The first argument is
fuel bounding the number of iterations; `FormatUint` supplies enough. -/
def formatUintAux (base : Nat) : Nat → Nat → Str → Str
  | 0, u, acc => digitChar u :: acc
  | fuel + 1, u, acc =>
    if u < base then digitChar u :: acc
    else formatUintAux base fuel (u / base) (digitChar (u % base) :: acc)

/-- `strconv.FormatUint u base`: the base-`base` rendering of `u` with
lower-case digits.  (Go panics when `base` is outside 2..36; the package only
calls it with valid bases, and every theorem below restricts the base.) -/
def FormatUint (u : Nat) (base : Nat) : Str :=
  formatUintAux base u u []

/-- The scan of Go's `underscoreOK`: `saw` is the character class last seen,
`^` at the beginning, `0` after a digit or base marker, `_` after an
underscore, `!` after anything else.  Underscores must sit between digits. -/
def underscoreOKAux (hex : Bool) : Str → Char → Bool
  | [], saw => saw != '_'
  | c :: rest, saw =>
    if (48 ≤ c.toNat ∧ c.toNat ≤ 57) ∨
        (hex ∧ 97 ≤ (asciiLower c).toNat ∧ (asciiLower c).toNat ≤ 102) then
      underscoreOKAux hex rest '0'
    else if c = '_' then
      (saw == '0') && underscoreOKAux hex rest '_'
    else if saw = '_' then false
    else underscoreOKAux hex rest '!'

/-- Go's `strconv.underscoreOK s`: underscores in `s` are legal digit
separators (only between digits, or between a base marker and a digit). -/
def underscoreOK (s : Str) : Bool :=
  let s1 := match s with
    | c :: rest => if c = '-' ∨ c = '+' then rest else c :: rest
    | [] => []
  match s1 with
  | c0 :: c1 :: rest =>
    if c0 = '0' ∧ (asciiLower c1 = 'b' ∨ asciiLower c1 = 'o' ∨ asciiLower c1 = 'x') then
      underscoreOKAux (asciiLower c1 == 'x') rest '0'
    else underscoreOKAux false s1 '^'
  | _ => underscoreOKAux false s1 '^'

/-- The numeric value of one character in the `strconv.ParseUint` digit loop:
`c - '0'` for a decimal digit, `lower(c) - 'a' + 10` for a letter, else none. -/
def digitVal (c : Char) : Option Nat :=
  if 48 ≤ c.toNat ∧ c.toNat ≤ 57 then some (c.toNat - 48)
  else if 97 ≤ (asciiLower c).toNat ∧ (asciiLower c).toNat ≤ 122 then
    some ((asciiLower c).toNat - 87)
  else none

/-- The accumulating digit loop of `strconv.ParseUint`: rejects non-digits,
digits at or above the base, and values above `maxVal`; skips underscores when
the caller passed base 0, recording that it saw one. -/
def parseUintAux (base0 : Bool) (base maxVal : Nat) : Str → Nat → Bool → Option (Nat × Bool)
  | [], n, us => some (n, us)
  | c :: rest, n, us =>
    if c = '_' ∧ base0 = true then parseUintAux base0 base maxVal rest n true
    else
      match digitVal c with
      | none => none
      | some d =>
        if base ≤ d then none
        else if maxVal < n * base + d then none
        else parseUintAux base0 base maxVal rest (n * base + d) us

/-- Base-0 prefix detection of `strconv.ParseUint`: the effective base and the
remaining digits.  `0b`/`0o`/`0x` (needing at least one character after them)
pick 2/8/16; a bare leading `0` picks octal and is consumed; else decimal. -/
def base0Detect (s : Str) : Nat × Str :=
  match s with
  | '0' :: c1 :: c2 :: rest =>
    if asciiLower c1 = 'b' then (2, c2 :: rest)
    else if asciiLower c1 = 'o' then (8, c2 :: rest)
    else if asciiLower c1 = 'x' then (16, c2 :: rest)
    else (8, c1 :: c2 :: rest)
  | '0' :: rest => (8, rest)
  | _ => (10, s)

/-- `strconv.ParseUint s base bitSize` (no sign allowed).  With base 0 the base
is read off the prefix and underscores are then allowed as digit separators.
The result must fit in `bitSize` bits.  All failures (syntax, range, bad base,
bad bit size) are `none`: the package only ever tests the error against nil. -/
def ParseUint (s : Str) (base bitSize : Nat) : Option Nat :=
  if s = [] then none
  else if ¬(base = 0 ∨ (2 ≤ base ∧ base ≤ 36)) then none
  else
    let base0 := base == 0
    let bs2 : Nat × Str := if base ≠ 0 then (base, s) else base0Detect s
    let bitSize := if bitSize = 0 then 64 else bitSize
    if 64 < bitSize then none
    else
      match parseUintAux base0 bs2.1 (2 ^ bitSize - 1) bs2.2 0 false with
      | none => none
      | some nus => if nus.2 && !underscoreOK s then none else some nus.1

/-- The sign handling at the top of `strconv.ParseInt`: the sign and the rest. -/
def signSplit (s : Str) : Bool × Str :=
  match s with
  | '+' :: rest => (false, rest)
  | '-' :: rest => (true, rest)
  | _ => (false, s)

/-- `strconv.ParseInt s base bitSize`: an optional sign followed by a
`ParseUint` body; the magnitude must satisfy the signed range for `bitSize`
bits.  (Go's range error after a `ParseUint` range error collapses to the same
`none`.) -/
def ParseInt (s : Str) (base bitSize : Nat) : Option Int :=
  if s = [] then none
  else
    let negs := signSplit s
    match ParseUint negs.2 base bitSize with
    | none => none
    | some un =>
      let bitSize := if bitSize = 0 then 64 else bitSize
      let cutoff := 2 ^ (bitSize - 1)
      if negs.1 = false ∧ cutoff ≤ un then none
      else if negs.1 = true ∧ cutoff < un then none
      else some (if negs.1 then -(un : Int) else (un : Int))

end strconv

namespace strings

/-- `strings.Split` with a one-character separator (the package only splits on
a comma): the list of maximal separator-free runs; the empty string yields one
empty piece. -/
def Split (s : Str) (sep : Char) : List Str :=
  match s with
  | [] => [[]]
  | c :: rest =>
    match Split rest sep with
    | [] => [[]]
    | p :: ps => if c = sep then [] :: p :: ps else (c :: p) :: ps

/-- `unicode.IsSpace`: Go's White_Space property — the Latin-1 white space
characters together with U+1680, U+2000..U+200A, U+2028, U+2029, U+205F and
U+3000. -/
def isSpace (c : Char) : Bool :=
  c.toNat = 32 ∨ c.toNat = 9 ∨ c.toNat = 10 ∨ c.toNat = 11 ∨ c.toNat = 12 ∨
    c.toNat = 13 ∨ c.toNat = 133 ∨ c.toNat = 160 ∨ c.toNat = 5760 ∨
    (8192 ≤ c.toNat ∧ c.toNat ≤ 8202) ∨ c.toNat = 8232 ∨ c.toNat = 8233 ∨
    c.toNat = 8287 ∨ c.toNat = 12288

/-- `strings.TrimSpace`: drop white space from both ends. -/
def TrimSpace (s : Str) : Str :=
  ((s.dropWhile isSpace).reverse.dropWhile isSpace).reverse

/-- `strings.ToLower` (ASCII range, where all symbol names live). -/
def ToLower (s : Str) : Str := s.map asciiLower

end strings

namespace fmt

/-- `fmt.Sprintf("%d", v)` for a value of integer kind: decimal digits with a
leading minus sign for negative values. -/
def sprintfInt (v : Int) : Str :=
  if v < 0 then '-' :: strconv.FormatUint v.natAbs 10
  else strconv.FormatUint v.toNat 10

end fmt

/-- The observable outcome of running a Go function that may panic: either the
returned value, or a runtime panic (the function never returns). -/
inductive GoResult (β : Type) where
  | ok (val : β)
  | panic
deriving DecidableEq

namespace enum

variable {α σ : Type}

/-- One exported method of the enum type, as reflection lists it.  A `symbol`
method passes `isValidEnumSymbolMethod` (one argument — the receiver — and one
result of the enum type itself) and carries the value it returns.  Every
`other` exported method (such as the `String` helper every example type
defines, or `Access.IsSet`) carries the outcome of
`Func.Call([zero])[0].Convert(enumType)`: `some v` when the call succeeds and
the result converts to the enum type, `none` when `Call` or `Convert` panics
(wrong arity, no result, or an unconvertible result type). -/
inductive Method (α : Type) where
  | symbol (name : Str) (value : α)
  | other (name : Str) (callConvert : Option α)
deriving DecidableEq

/-- The method's name. -/
def Method.name : Method α → Str
  | .symbol n _ => n
  | .other n _ => n

/-- `isValidEnumSymbolMethod`: one input (the receiver) and one output whose
type is the enum type itself. -/
def Method.isValidEnumSymbolMethod : Method α → Bool
  | .symbol _ _ => true
  | .other _ _ => false

/-- The outcome of `method.Func.Call(args[:])[0].Convert(enumType)`: for a
symbol method the conversion is the identity and yields the method's value;
for any other method it is whatever the reflection calls produce, or a panic. -/
def Method.callConvert : Method α → Option α
  | .symbol _ v => some v
  | .other _ cc => cc

/-- An enum-like Go type as reflection presents it to the package: the type
name, whether its underlying kind is a signed integer, its size in bits
(`Size() * 8`), and the full exported method set in reflection order
(sorted by name).  String-valued enums fix `α` to `Str`; integer enums fix it
to `Int`; flag enums to `Nat`. -/
structure EnumType (α : Type) where
  name : Str
  signed : Bool
  bits : Nat
  methods : List (Method α)

/-- The (name, value) pairs of the methods that pass the symbol filter, in
order — the view of the method set that the enumerator exposes. -/
def symbolsOf (methods : List (Method α)) : List (Str × α) :=
  methods.filterMap fun m =>
    match m with
    | .symbol n v => some (n, v)
    | .other _ _ => none

/-- The type's symbols: its filtered method set. -/
def EnumType.symbols (et : EnumType α) : List (Str × α) :=
  symbolsOf et.methods

/-- The value `fmt.Errorf("couldn't parse %q into a %q", text, typeName)`
produces: it is determined by the offending text and the type name, kept here
as fields. -/
structure EnumError where
  text : Str
  typeName : Str
deriving DecidableEq

/-- The loop of `enum.GetSymbols` over the remaining exported methods: methods
failing `isValidEnumSymbolMethod` are skipped; a symbol method's value is
passed to the callback.  The Go callback mutates its closure; here that state
`σ` is passed explicitly, and the callback returns the new state together with
the stop flag. -/
def getSymbolsAux (esi : σ → Str → α → σ × Bool) : List (Method α) → σ → σ
  | [], st => st
  | m :: rest, st =>
    match m with
    | .other _ _ => getSymbolsAux esi rest st
    | .symbol name value =>
      let r := esi st name value
      if r.2 then r.1 else getSymbolsAux esi rest r.1

/-- `enum.GetSymbols`: invoke the callback once per symbol method, in order,
halting as soon as the callback returns true. -/
def GetSymbols (enumType : EnumType α) (esi : σ → Str → α → σ × Bool) (st : σ) : σ :=
  getSymbolsAux esi enumType.methods st

/-- The enumeration loop restricted to the filtered symbol view: the shape the
formatter lemmas are stated over, proved equal to the method-level loop. -/
def symRun (esi : σ → Str → α → σ × Bool) : List (Str × α) → σ → σ
  | [], st => st
  | m :: rest, st =>
    let r := esi st m.1 m.2
    if r.2 then r.1 else symRun esi rest r.1

/-- `enum.String`: the name of the first symbol whose value equals `enumValue`,
or the empty string when none matches. -/
def String [DecidableEq α] (enumValue : α) (enumType : EnumType α) : Str :=
  GetSymbols enumType
    (fun symbolResult symbol value =>
      if value = enumValue then (symbol, true) else (symbolResult, false)) []

/-- `enum.StringInt`: the matching symbol name, else the value in decimal. -/
def StringInt (intValue : Int) (enumType : EnumType Int) : Str :=
  let symbolName := String intValue enumType
  if symbolName ≠ [] then symbolName else fmt.sprintfInt intValue

/-- The callback `enum.StringUintFlags` passes to `GetSymbols`; its closure
state is the pair (bitsFound, symbolNames). -/
def flagsCallback (intValue : Nat) (st : Nat × Str) (symbolName : Str) (symVal : Nat) :
    (Nat × Str) × Bool :=
  if intValue = 0 ∧ symVal = 0 then
    ((st.1, st.2 ++ symbolName), true)
  else if symVal ≠ 0 ∧ intValue &&& symVal = symVal then
    ((st.1 ||| symVal,
      (if st.2.length > 0 then st.2 ++ [',', ' '] else st.2) ++ symbolName), false)
  else (st, false)

/-- `enum.StringUintFlags`: comma-and-space separated names of the symbols
whose bits are all present in the value, with the bits no symbol accounted for
appended last, rendered in `intBase` behind a literal "0x". -/
def StringUintFlags (intValue : Nat) (enumType : EnumType Nat) (intBase : Nat) : Str :=
  let st := GetSymbols enumType (flagsCallback intValue) (0, [])
  if st.1 ≠ intValue then
    (if st.2.length > 0 then st.2 ++ [',', ' '] else st.2) ++
      ('0' :: 'x' :: strconv.FormatUint (intValue ^^^ st.1) intBase)
  else st.2

/-- Reflection's `MethodByName`: the exported method — symbol or not — with
exactly this name (method names are unique, so the first hit is the only one). -/
def MethodByName (methods : List (Method α)) (methodName : Str) : Option (Method α) :=
  methods.find? (fun m => m.name == methodName)

/-- The case-insensitive lookup loop of `enum.findMethod`: the first exported
method — symbol or not — whose lower-cased name equals the (already
lower-cased) argument. -/
def findMethodCI (methods : List (Method α)) (loweredName : Str) : Option (Method α) :=
  match methods with
  | [] => none
  | m :: rest =>
    if strings.ToLower m.name = loweredName then some m else findMethodCI rest loweredName

/-- `enum.findMethod`: exact lookup, or the case-insensitive scan, over the
type's entire exported method set (there is no symbol filter here). -/
def findMethod (enumType : EnumType α) (methodName : Str) (caseInsensitive : Bool) :
    Option (Method α) :=
  if !caseInsensitive then MethodByName enumType.methods methodName
  else findMethodCI enumType.methods (strings.ToLower methodName)

/-- `enum.Parse`: look the text up among all exported methods; when found, call
the method on a zero receiver and convert the result to the enum type — which
panics for a found non-symbol method whose invocation or conversion fails —
else return the lookup error.  Go returns a nil value exactly on error. -/
def Parse (enumType : EnumType α) (s : Str) (caseInsensitive : Bool) :
    GoResult (Option α × Option EnumError) :=
  match findMethod enumType s caseInsensitive with
  | some m =>
    match m.callConvert with
    | some v => .ok (some v, none)
    | none => .panic
  | none => .ok (none, some ⟨s, enumType.name⟩)

/-- `enum.ParseInt`: `Parse`, and — when that failed and parsing is not strict —
a literal integer of the type's kind and width.  A panic in `Parse`
propagates. -/
def ParseInt (enumType : EnumType Int) (s : Str) (caseInsensitive strict : Bool) :
    GoResult (Option Int × Option EnumError) :=
  match Parse enumType s caseInsensitive with
  | .panic => .panic
  | .ok r =>
    if r.2 = none ∨ strict = true then .ok r
    else if enumType.signed then
      match strconv.ParseInt s 0 enumType.bits with
      | some intVal => .ok (some intVal, none)
      | none => .ok r
    else
      match strconv.ParseUint s 0 enumType.bits with
      | some intVal => .ok (some (intVal : Int), none)
      | none => .ok r

/-- The loop of `enum.ParseUintFlags` over the comma-separated pieces: trim
each piece, resolve it as a method or an unsigned literal and OR it in; on the
first unresolvable piece return 0 and the error naming that piece.  A panic in
`Parse` propagates. -/
def parseUintFlagsAux (enumType : EnumType Nat) (caseInsensitive : Bool) :
    List Str → Nat → GoResult (Nat × Option EnumError)
  | [], val => .ok (val, none)
  | piece :: rest, val =>
    let f := strings.TrimSpace piece
    match Parse enumType f caseInsensitive with
    | .panic => .panic
    | .ok (some v, _) => parseUintFlagsAux enumType caseInsensitive rest (val ||| v)
    | .ok (none, _) =>
      match strconv.ParseUint f 0 enumType.bits with
      | some i => parseUintFlagsAux enumType caseInsensitive rest (val ||| i)
      | none => .ok (0, some ⟨f, enumType.name⟩)

/-- `enum.ParseUintFlags`: split on commas and accumulate. -/
def ParseUintFlags (enumType : EnumType Nat) (s : Str) (caseInsensitive : Bool) :
    GoResult (Nat × Option EnumError) :=
  parseUintFlagsAux enumType caseInsensitive (strings.Split s ',') 0

/-- The `Color` enum of the repository's examples (an `int16`); reflection
lists the value-receiver exported methods sorted by name.  `String` and
`StringFast` return `string`, which reflect cannot convert to the int16-kind
`Color`, so calling them through `Parse` panics at `Convert`. -/
def colorEnum : EnumType Int :=
  ⟨"Color".toList, true, 16,
    [.symbol "Blue".toList 3, .symbol "Green".toList 2, .symbol "None".toList 0,
     .symbol "Red".toList 1, .other "String".toList none, .other "StringFast".toList none]⟩

/-- The `Access` flags enum of the repository's examples (a `uint32`).
`IsSet` takes a second argument, so `Call` with one argument panics; `String`
returns `string`, which does not convert to the uint32-kind `Access`. -/
def accessEnum : EnumType Nat :=
  ⟨"Access".toList, false, 32,
    [.symbol "Execute".toList 4, .other "IsSet".toList none, .symbol "None".toList 0,
     .symbol "Read".toList 1, .other "String".toList none, .symbol "Write".toList 2]⟩

/-- A flags enum shaped like `Access` but with no zero-valued symbol. -/
def flagsNoZero : EnumType Nat :=
  ⟨"Flags".toList, false, 32, [.symbol "Read".toList 1, .symbol "Write".toList 2]⟩

/-- Comma-and-space join of a list of pieces: the shape the `strings.Builder`
of `StringUintFlags` accumulates, named so the formatter's output can be
described as a whole. -/
def joinCS : List Str → Str
  | [] => []
  | [p] => p
  | p :: ps => p ++ (',' :: ' ' :: joinCS ps)

/-- The symbols `StringUintFlags` names for a non-zero value: those with a
non-zero value all of whose bits are present in the value, in order. -/
def matchedSyms (v : Nat) (symbols : List (Str × Nat)) : List (Str × Nat) :=
  symbols.filter (fun p => p.2 != 0 && (v &&& p.2 == p.2))

/-- The union of the matched symbols' bits. -/
def matchedBits (v : Nat) (symbols : List (Str × Nat)) : Nat :=
  (matchedSyms v symbols).foldl (fun a p => a ||| p.2) 0

/-- Whether a callback, run through a symbol list with explicit state, never
asks enumeration to stop — the trace-side notion used to state what
`GetSymbols` visits. -/
def runContinues (f : σ → Str → α → σ × Bool) : List (Str × α) → σ → Bool
  | [], _ => true
  | m :: rest, st => !(f st m.1 m.2).2 && runContinues f rest (f st m.1 m.2).1

end enum

section CharFacts

theorem toNat_char_ofNat {n : Nat} (h : n < 55296) : (Char.ofNat n).toNat = n := by
  simp [Char.ofNat, Char.toNat, Nat.isValidChar, h, Char.ofNatAux, UInt32.toNat,
    UInt32.ofNatCore]

theorem char_eq_of_toNat_eq {a b : Char} (h : a.toNat = b.toNat) : a = b :=
  Char.eq_of_val_eq (UInt32.eq_of_val_eq (Fin.eq_of_val_eq h))

theorem char_ne_of_toNat_ne {a b : Char} (h : a.toNat ≠ b.toNat) : a ≠ b :=
  fun e => h (congrArg Char.toNat e)

theorem asciiLower_of_not_upper {c : Char} (h : ¬(65 ≤ c.toNat ∧ c.toNat ≤ 90)) :
    asciiLower c = c := by
  simp only [asciiLower, if_neg h]

theorem toNat_asciiLower_of_upper {c : Char} (h1 : 65 ≤ c.toNat) (h2 : c.toNat ≤ 90) :
    (asciiLower c).toNat = c.toNat + 32 := by
  simp only [asciiLower, if_pos (And.intro h1 h2)]
  exact toNat_char_ofNat (by omega)

theorem isSpace_iff_toNat {c : Char} :
    strings.isSpace c = true ↔
      (c.toNat = 32 ∨ c.toNat = 9 ∨ c.toNat = 10 ∨ c.toNat = 11 ∨ c.toNat = 12 ∨
        c.toNat = 13 ∨ c.toNat = 133 ∨ c.toNat = 160 ∨ c.toNat = 5760 ∨
        (8192 ≤ c.toNat ∧ c.toNat ≤ 8202) ∨ c.toNat = 8232 ∨ c.toNat = 8233 ∨
        c.toNat = 8287 ∨ c.toNat = 12288) := by
  simp only [strings.isSpace, decide_eq_true_eq]

theorem isSpace_false_of_toNat {c : Char} (h1 : 48 ≤ c.toNat) (h2 : c.toNat ≤ 122) :
    strings.isSpace c = false := by
  rw [Bool.eq_false_iff]
  intro h
  rcases isSpace_iff_toNat.mp h with
    h | h | h | h | h | h | h | h | h | h | h | h | h | h <;> omega

end CharFacts

section FormatFacts

theorem toNat_digitChar {d : Nat} (h : d < 36) :
    (strconv.digitChar d).toNat = if d < 10 then 48 + d else 87 + d := by
  unfold strconv.digitChar
  by_cases hd : d < 10
  · rw [if_pos hd, if_pos hd]; exact toNat_char_ofNat (by omega)
  · rw [if_neg hd, if_neg hd]; exact toNat_char_ofNat (by omega)

theorem digitChar_range {d : Nat} (h : d < 36) :
    (48 ≤ (strconv.digitChar d).toNat ∧ (strconv.digitChar d).toNat ≤ 57) ∨
      (97 ≤ (strconv.digitChar d).toNat ∧ (strconv.digitChar d).toNat ≤ 122) := by
  have ht := toNat_digitChar h
  split at ht <;> omega

theorem digitVal_digitChar {d : Nat} (h : d < 36) :
    strconv.digitVal (strconv.digitChar d) = some d := by
  have ht := toNat_digitChar h
  unfold strconv.digitVal
  split at ht <;> rename_i hd
  · rw [if_pos (by omega)]
    exact congrArg some (by omega)
  · have hl : asciiLower (strconv.digitChar d) = strconv.digitChar d :=
      asciiLower_of_not_upper (by omega)
    rw [if_neg (by omega), hl, if_pos (by omega)]
    exact congrArg some (by omega)

theorem digitChar_ne_underscore {d : Nat} (h : d < 36) : strconv.digitChar d ≠ '_' := by
  apply char_ne_of_toNat_ne
  have ht := toNat_digitChar h
  have h95 : ('_').toNat = 95 := rfl
  rw [h95]
  split at ht <;> omega

theorem digitChar_ne_comma {d : Nat} (h : d < 36) : strconv.digitChar d ≠ ',' := by
  apply char_ne_of_toNat_ne
  have h44 : (',').toNat = 44 := rfl
  rw [h44]
  rcases digitChar_range h with hr | hr <;> omega

theorem isSpace_digitChar {d : Nat} (h : d < 36) :
    strings.isSpace (strconv.digitChar d) = false := by
  rcases digitChar_range h with hr | hr <;> exact isSpace_false_of_toNat (by omega) (by omega)

theorem digitChar_eq_zero_iff {d : Nat} (h : d < 36) : strconv.digitChar d = '0' ↔ d = 0 := by
  constructor
  · intro e
    have ht := toNat_digitChar h
    have h48 : ('0').toNat = 48 := rfl
    rw [e, h48] at ht
    split at ht <;> omega
  · rintro rfl
    decide

theorem formatUintAux_append (base : Nat) (hb : 2 ≤ base) :
    ∀ fuel u acc, u ≤ fuel →
      strconv.formatUintAux base fuel u acc = strconv.formatUintAux base fuel u [] ++ acc := by
  intro fuel
  induction fuel with
  | zero =>
    intro u acc hu
    interval_cases u
    rfl
  | succ n ih =>
    intro u acc hu
    by_cases hlt : u < base
    · simp [strconv.formatUintAux, hlt]
    · have hdiv : u / base < u := Nat.div_lt_self (by omega) (by omega)
      have h1 : u / base ≤ n := by omega
      simp only [strconv.formatUintAux, if_neg hlt]
      rw [ih _ _ h1, ih _ [strconv.digitChar (u % base)] h1, List.append_assoc]
      rfl

theorem formatUintAux_ne_nil (base : Nat) :
    ∀ fuel u acc, strconv.formatUintAux base fuel u acc ≠ [] := by
  intro fuel
  induction fuel with
  | zero => intro u acc; simp [strconv.formatUintAux]
  | succ n ih =>
    intro u acc
    by_cases hlt : u < base <;> simp only [strconv.formatUintAux, if_pos, if_neg, hlt,
      ite_true, ite_false]
    · simp
    · apply ih

theorem formatUintAux_mem (base : Nat) (hb : 2 ≤ base) :
    ∀ fuel u acc c, u ≤ fuel → c ∈ strconv.formatUintAux base fuel u acc →
      (∃ d, d < base ∧ c = strconv.digitChar d) ∨ c ∈ acc := by
  intro fuel
  induction fuel with
  | zero =>
    intro u acc c hu hc
    interval_cases u
    rcases List.mem_cons.mp hc with h | h
    · exact Or.inl ⟨0, by omega, h⟩
    · exact Or.inr h
  | succ n ih =>
    intro u acc c hu hc
    by_cases hlt : u < base
    · rw [show strconv.formatUintAux base (n + 1) u acc = strconv.digitChar u :: acc by
        simp [strconv.formatUintAux, hlt]] at hc
      rcases List.mem_cons.mp hc with h | h
      · exact Or.inl ⟨u, hlt, h⟩
      · exact Or.inr h
    · have hdiv : u / base < u := Nat.div_lt_self (by omega) (by omega)
      rw [show strconv.formatUintAux base (n + 1) u acc =
          strconv.formatUintAux base n (u / base) (strconv.digitChar (u % base) :: acc) by
        simp [strconv.formatUintAux, hlt]] at hc
      rcases ih (u / base) _ c (by omega) hc with h | h
      · exact Or.inl h
      · rcases List.mem_cons.mp h with h2 | h2
        · exact Or.inl ⟨u % base, Nat.mod_lt _ (by omega), h2⟩
        · exact Or.inr h2

theorem formatUintAux_head (base : Nat) (hb : 2 ≤ base) :
    ∀ fuel u, u ≠ 0 → u ≤ fuel →
      ∃ d rest, strconv.formatUintAux base fuel u [] = strconv.digitChar d :: rest ∧
        d ≠ 0 ∧ d < base := by
  intro fuel
  induction fuel with
  | zero => intro u hu0 hu; omega
  | succ n ih =>
    intro u hu0 hu
    by_cases hlt : u < base
    · exact ⟨u, [], by simp [strconv.formatUintAux, hlt], hu0, hlt⟩
    · have hdiv : u / base < u := Nat.div_lt_self (by omega) (by omega)
      have hne : u / base ≠ 0 := by
        have := Nat.div_pos (by omega : base ≤ u) (by omega : 0 < base)
        omega
      obtain ⟨d, rest, heq, hd0, hdb⟩ := ih (u / base) hne (by omega)
      refine ⟨d, rest ++ [strconv.digitChar (u % base)], ?_, hd0, hdb⟩
      rw [show strconv.formatUintAux base (n + 1) u [] =
          strconv.formatUintAux base n (u / base) [strconv.digitChar (u % base)] by
        simp [strconv.formatUintAux, hlt]]
      rw [formatUintAux_append base hb n (u / base) _ (by omega), heq]
      rfl

theorem parseUintAux_append (base0 : Bool) (base maxVal : Nat) :
    ∀ xs ys n us,
      strconv.parseUintAux base0 base maxVal (xs ++ ys) n us =
        match strconv.parseUintAux base0 base maxVal xs n us with
        | none => none
        | some r => strconv.parseUintAux base0 base maxVal ys r.1 r.2 := by
  intro xs
  induction xs with
  | nil => intro ys n us; rfl
  | cons c rest ih =>
    intro ys n us
    show strconv.parseUintAux base0 base maxVal (c :: (rest ++ ys)) n us = _
    simp only [strconv.parseUintAux]
    by_cases h1 : c = '_' ∧ base0 = true
    · rw [if_pos h1, if_pos h1]
      exact ih ys n true
    · rw [if_neg h1, if_neg h1]
      cases hdv : strconv.digitVal c with
      | none => rfl
      | some d =>
        dsimp only
        by_cases h2 : base ≤ d
        · rw [if_pos h2, if_pos h2]
        · rw [if_neg h2, if_neg h2]
          by_cases h3 : maxVal < n * base + d
          · rw [if_pos h3, if_pos h3]
          · rw [if_neg h3, if_neg h3]
            exact ih ys (n * base + d) us

theorem parseUintAux_formatUintAux (base0 : Bool) (base maxVal : Nat)
    (hb : 2 ≤ base) (hb36 : base ≤ 36) :
    ∀ fuel u, u ≤ fuel → u ≤ maxVal →
      strconv.parseUintAux base0 base maxVal (strconv.formatUintAux base fuel u []) 0 false =
        some (u, false) := by
  intro fuel
  induction fuel with
  | zero =>
    intro u hu hum
    interval_cases u
    show strconv.parseUintAux base0 base maxVal [strconv.digitChar 0] 0 false = _
    simp only [strconv.parseUintAux]
    rw [if_neg (by exact fun h => digitChar_ne_underscore (by omega) h.1),
      digitVal_digitChar (by omega)]
    dsimp only
    simp only [Nat.zero_mul, Nat.zero_add]
    rw [if_neg (by omega), if_neg (by omega)]
  | succ n ih =>
    intro u hu hum
    by_cases hlt : u < base
    · rw [show strconv.formatUintAux base (n + 1) u [] = [strconv.digitChar u] by
        simp [strconv.formatUintAux, hlt]]
      simp only [strconv.parseUintAux]
      rw [if_neg (by exact fun h => digitChar_ne_underscore (by omega) h.1),
        digitVal_digitChar (by omega)]
      dsimp only
      simp only [Nat.zero_mul, Nat.zero_add]
      rw [if_neg (by omega), if_neg (by omega)]
    · have hdiv : u / base < u := Nat.div_lt_self (by omega) (by omega)
      rw [show strconv.formatUintAux base (n + 1) u [] =
          strconv.formatUintAux base n (u / base) [strconv.digitChar (u % base)] by
        simp [strconv.formatUintAux, hlt]]
      rw [formatUintAux_append base hb n (u / base) _ (by omega)]
      rw [parseUintAux_append]
      rw [ih (u / base) (by omega) (by omega)]
      have hmod : u % base < base := Nat.mod_lt _ (by omega)
      have hdm : u / base * base + u % base = u := by
        rw [Nat.mul_comm (u / base) base]
        exact Nat.div_add_mod u base
      show strconv.parseUintAux base0 base maxVal [strconv.digitChar (u % base)] (u / base)
          false = _
      simp only [strconv.parseUintAux]
      rw [if_neg (by exact fun h => digitChar_ne_underscore (by omega) h.1),
        digitVal_digitChar (by omega)]
      dsimp only
      rw [hdm, if_neg (by omega), if_neg (by omega)]

end FormatFacts

section ParseFacts

theorem base0Detect_hex (c : Char) (r : Str) :
    strconv.base0Detect ('0' :: 'x' :: c :: r) = (16, c :: r) := rfl

theorem base0Detect_not_zero {c : Char} (hc : c ≠ '0') (r : Str) :
    strconv.base0Detect (c :: r) = (10, c :: r) := by
  unfold strconv.base0Detect
  split
  · rename_i h; rw [List.cons.injEq] at h; exact absurd h.1 hc
  · rename_i h; rw [List.cons.injEq] at h; exact absurd h.1 hc
  · rfl

theorem base0Detect_single_zero : strconv.base0Detect ['0'] = (8, []) := rfl

theorem ParseUint_base0_eq {s : Str} (hs : s ≠ []) {bs : Nat} (h1 : 1 ≤ bs) (h64 : bs ≤ 64) :
    strconv.ParseUint s 0 bs =
      match strconv.parseUintAux true (strconv.base0Detect s).1 (2 ^ bs - 1)
          (strconv.base0Detect s).2 0 false with
      | none => none
      | some nus => if nus.2 && !strconv.underscoreOK s then none else some nus.1 := by
  unfold strconv.ParseUint
  rw [if_neg hs, if_neg (by simp)]
  have e1 : (if (0 : Nat) ≠ 0 then ((0 : Nat), s) else strconv.base0Detect s) =
      strconv.base0Detect s := if_neg (by simp)
  have e2 : (if bs = 0 then 64 else bs) = bs := if_neg (by omega)
  have e3 : ((0 : Nat) == 0) = true := rfl
  simp only [e1, e2, e3]
  rw [if_neg (by omega : ¬(64 < bs))]

theorem ParseUint_decimal {u bs : Nat} (h1 : 1 ≤ bs) (h64 : bs ≤ 64)
    (hu : u ≤ 2 ^ bs - 1) :
    strconv.ParseUint (strconv.FormatUint u 10) 0 bs = some u := by
  have hne : strconv.FormatUint u 10 ≠ [] := formatUintAux_ne_nil 10 u u []
  rw [ParseUint_base0_eq hne h1 h64]
  have hrt : strconv.parseUintAux true 10 (2 ^ bs - 1) (strconv.FormatUint u 10) 0 false =
      some (u, false) :=
    parseUintAux_formatUintAux true 10 (2 ^ bs - 1) (by omega) (by omega) u u (le_refl u) hu
  rcases Nat.eq_zero_or_pos u with rfl | hu0
  · have hd : strconv.FormatUint 0 10 = ['0'] := by decide
    rw [hd] at hrt ⊢
    rw [base0Detect_single_zero]
    simp [strconv.parseUintAux]
  · obtain ⟨d, rest, heq', hd0, hdb⟩ :=
      formatUintAux_head 10 (by omega) u u (by omega) (le_refl u)
    have heq : strconv.FormatUint u 10 = strconv.digitChar d :: rest := heq'
    have hc0 : strconv.digitChar d ≠ '0' := fun h =>
      hd0 ((digitChar_eq_zero_iff (by omega)).mp h)
    rw [heq, base0Detect_not_zero hc0]
    dsimp only
    rw [← heq, hrt]
    simp

theorem ParseUint_hex_tagged {r bs : Nat} (h1 : 1 ≤ bs) (h64 : bs ≤ 64)
    (hr : r ≤ 2 ^ bs - 1) :
    strconv.ParseUint ('0' :: 'x' :: strconv.FormatUint r 16) 0 bs = some r := by
  obtain ⟨c, rest, heq'⟩ :=
    List.exists_cons_of_ne_nil (formatUintAux_ne_nil 16 r r ([] : Str))
  have heq : strconv.FormatUint r 16 = c :: rest := heq'
  rw [ParseUint_base0_eq (by simp) h1 h64]
  have hrt : strconv.parseUintAux true 16 (2 ^ bs - 1) (strconv.FormatUint r 16) 0 false =
      some (r, false) :=
    parseUintAux_formatUintAux true 16 (2 ^ bs - 1) (by omega) (by omega) r r (le_refl r) hr
  rw [heq, base0Detect_hex]
  dsimp only
  rw [← heq, hrt]
  simp

theorem signSplit_neg (r : Str) : strconv.signSplit ('-' :: r) = (true, r) := rfl

theorem signSplit_other {c : Char} (h1 : c ≠ '+') (h2 : c ≠ '-') (r : Str) :
    strconv.signSplit (c :: r) = (false, c :: r) := by
  unfold strconv.signSplit
  split
  · rename_i h; rw [List.cons.injEq] at h; exact absurd h.1 h1
  · rename_i h; rw [List.cons.injEq] at h; exact absurd h.1 h2
  · rfl

theorem ParseInt_base0_eq {s : Str} (hs : s ≠ []) {bs : Nat} (h1 : 1 ≤ bs) :
    strconv.ParseInt s 0 bs =
      match strconv.ParseUint (strconv.signSplit s).2 0 bs with
      | none => none
      | some un =>
        if (strconv.signSplit s).1 = false ∧ 2 ^ (bs - 1) ≤ un then none
        else if (strconv.signSplit s).1 = true ∧ 2 ^ (bs - 1) < un then none
        else some (if (strconv.signSplit s).1 then -(un : Int) else (un : Int)) := by
  unfold strconv.ParseInt
  rw [if_neg hs]
  have e2 : (if bs = 0 then 64 else bs) = bs := if_neg (by omega)
  simp only [e2]

theorem sprintfInt_head (v : Int) :
    ∃ c rest, fmt.sprintfInt v = c :: rest ∧ c.toNat < 65 := by
  unfold fmt.sprintfInt
  split
  · exact ⟨'-', _, rfl, by decide⟩
  · obtain ⟨c, rest, heq'⟩ :=
      List.exists_cons_of_ne_nil (formatUintAux_ne_nil 10 v.toNat v.toNat ([] : Str))
    have heq : strconv.FormatUint v.toNat 10 = c :: rest := heq'
    refine ⟨c, rest, heq, ?_⟩
    have hc : c ∈ strconv.FormatUint v.toNat 10 := by rw [heq]; exact List.mem_cons_self c rest
    rcases formatUintAux_mem 10 (by omega) v.toNat v.toNat [] c (le_refl _) hc with ⟨d, hd, rfl⟩ | h
    · have := toNat_digitChar (show d < 36 by omega)
      rw [if_pos hd] at this
      omega
    · simp at h

theorem isGoUpper_iff {c : Char} : isGoUpper c = true ↔ 65 ≤ c.toNat ∧ c.toNat ≤ 90 := by
  simp [isGoUpper]

theorem exportedName_shape {s : Str} (h : isExportedName s = true) :
    ∃ c0 rest, s = c0 :: rest ∧ 65 ≤ c0.toNat ∧ c0.toNat ≤ 90 := by
  cases s with
  | nil => simp [isExportedName] at h
  | cons c0 rest =>
    refine ⟨c0, rest, rfl, ?_⟩
    simp only [isExportedName, Bool.and_eq_true] at h
    exact isGoUpper_iff.mp h.1

theorem findMethodCI_eq_none {α : Type} {methods : List (enum.Method α)} {key : Str}
    (h : ∀ m ∈ methods, strings.ToLower m.name ≠ key) :
    enum.findMethodCI methods key = none := by
  induction methods with
  | nil => rfl
  | cons m rest ih =>
    unfold enum.findMethodCI
    rw [if_neg (h m (List.mem_cons_self m rest))]
    exact ih fun q hq => h q (List.mem_cons_of_mem m hq)

theorem findMethod_none_of_head_small {α : Type} (et : enum.EnumType α)
    (hnames : ∀ m ∈ et.methods, isExportedName m.name = true)
    {c : Char} {rest : Str} (hc : c.toNat < 65) (ci : Bool) :
    enum.findMethod et (c :: rest) ci = none := by
  cases ci with
  | false =>
    show enum.MethodByName et.methods (c :: rest) = none
    apply List.find?_eq_none.mpr
    intro m hm
    obtain ⟨c0, r0, heq, hlo, hhi⟩ := exportedName_shape (hnames m hm)
    simp only [heq, beq_eq_false_iff_ne, ne_eq, List.cons.injEq, not_and, beq_iff_eq]
    intro hcc
    exact absurd (congrArg Char.toNat hcc) (by omega)
  | true =>
    show enum.findMethodCI et.methods (strings.ToLower (c :: rest)) = none
    apply findMethodCI_eq_none
    intro m hm
    obtain ⟨c0, r0, heq, hlo, hhi⟩ := exportedName_shape (hnames m hm)
    rw [heq]
    show asciiLower c0 :: strings.ToLower r0 ≠ asciiLower c :: strings.ToLower rest
    have h1 : (asciiLower c0).toNat = c0.toNat + 32 := toNat_asciiLower_of_upper hlo hhi
    have h2 : asciiLower c = c := asciiLower_of_not_upper (by omega)
    rw [h2]
    intro he
    rw [List.cons.injEq] at he
    exact absurd (congrArg Char.toNat he.1) (by omega)

end ParseFacts

section SplitJoin

theorem Split_ne_nil (s : Str) (sep : Char) : strings.Split s sep ≠ [] := by
  cases s with
  | nil => simp [strings.Split]
  | cons c rest =>
    simp only [strings.Split]
    cases hsp : strings.Split rest sep with
    | nil => simp
    | cons p ps => by_cases h : c = sep <;> simp [h]

theorem Split_append_sep :
    ∀ xs : Str, (∀ c ∈ xs, c ≠ ',') → ∀ ys,
      strings.Split (xs ++ ',' :: ys) ',' = xs :: strings.Split ys ',' := by
  intro xs
  induction xs with
  | nil =>
    intro _ ys
    obtain ⟨p, ps, hsp⟩ := List.exists_cons_of_ne_nil (Split_ne_nil ys ',')
    show strings.Split (',' :: ys) ',' = [] :: strings.Split ys ','
    simp [strings.Split, hsp]
  | cons c rest ih =>
    intro hc ys
    have hcne : c ≠ ',' := hc c (List.mem_cons_self c rest)
    show strings.Split (c :: (rest ++ ',' :: ys)) ',' = _
    simp only [strings.Split]
    rw [ih (fun d hd => hc d (List.mem_cons_of_mem c hd)) ys]
    simp [hcne]

theorem Split_no_sep :
    ∀ xs : Str, (∀ c ∈ xs, c ≠ ',') → strings.Split xs ',' = [xs] := by
  intro xs
  induction xs with
  | nil => intro _; rfl
  | cons c rest ih =>
    intro hc
    have hcne : c ≠ ',' := hc c (List.mem_cons_self c rest)
    simp only [strings.Split]
    rw [ih fun d hd => hc d (List.mem_cons_of_mem c hd)]
    simp [hcne]

theorem joinCS_append_singleton (ns : List Str) (n : Str) :
    enum.joinCS (ns ++ [n]) =
      if ns = [] then n else enum.joinCS ns ++ (',' :: ' ' :: n) := by
  induction ns with
  | nil => simp [enum.joinCS]
  | cons p ps ih =>
    cases ps with
    | nil => simp [enum.joinCS]
    | cons q qs =>
      show enum.joinCS (p :: ((q :: qs) ++ [n])) = _
      rw [show enum.joinCS (p :: ((q :: qs) ++ [n])) =
          p ++ (',' :: ' ' :: enum.joinCS ((q :: qs) ++ [n])) by
        obtain ⟨z, zs, hz⟩ : ∃ z zs, (q :: qs) ++ [n] = z :: zs := ⟨q, qs ++ [n], rfl⟩
        rw [hz]; rfl]
      rw [ih]
      simp [enum.joinCS]

theorem joinCS_ne_nil {ns : List Str} (h : ∀ n ∈ ns, n ≠ []) (hne : ns ≠ []) :
    enum.joinCS ns ≠ [] := by
  cases ns with
  | nil => exact absurd rfl hne
  | cons p ps =>
    cases ps with
    | nil => exact h p (List.mem_cons_self p [])
    | cons q qs =>
      show p ++ (',' :: ' ' :: enum.joinCS (q :: qs)) ≠ []
      simp

theorem TrimSpace_cons_space (q : Str) :
    strings.TrimSpace (' ' :: q) = strings.TrimSpace q := by
  have h : strings.isSpace ' ' = true := rfl
  simp [strings.TrimSpace, List.dropWhile, h]

theorem TrimSpace_no_space {q : Str} (h : ∀ c ∈ q, strings.isSpace c = false) :
    strings.TrimSpace q = q := by
  have h1 : q.dropWhile strings.isSpace = q := by
    cases q with
    | nil => rfl
    | cons c r => simp [List.dropWhile, h c (List.mem_cons_self c r)]
  have h2 : q.reverse.dropWhile strings.isSpace = q.reverse := by
    cases hq : q.reverse with
    | nil => rfl
    | cons c r =>
      have hc : c ∈ q := by
        rw [← List.mem_reverse, hq]
        exact List.mem_cons_self c r
      rw [← hq]
      cases hq2 : q.reverse with
      | nil => rfl
      | cons d t =>
        have hd : d ∈ q := by
          rw [← List.mem_reverse, hq2]
          exact List.mem_cons_self d t
        simp [List.dropWhile, h d hd]
  rw [strings.TrimSpace, h1, h2, List.reverse_reverse]

theorem split_trim_joinCS :
    ∀ parts : List Str, parts ≠ [] →
      (∀ p ∈ parts, p ≠ [] ∧ ∀ c ∈ p, c ≠ ',' ∧ strings.isSpace c = false) →
      (strings.Split (enum.joinCS parts) ',').map strings.TrimSpace = parts := by
  intro parts
  induction parts with
  | nil => intro h; exact absurd rfl h
  | cons p ps ih =>
    intro _ hok
    have hp := hok p (List.mem_cons_self p ps)
    cases ps with
    | nil =>
      show (strings.Split (enum.joinCS [p]) ',').map strings.TrimSpace = [p]
      rw [show enum.joinCS [p] = p from rfl, Split_no_sep p fun c hc => (hp.2 c hc).1]
      simp [TrimSpace_no_space fun c hc => (hp.2 c hc).2]
    | cons q qs =>
      have htail : (strings.Split (enum.joinCS (q :: qs)) ',').map strings.TrimSpace = q :: qs :=
        ih (by simp) fun r hr => hok r (List.mem_cons_of_mem p hr)
      obtain ⟨h0, t0, hsp⟩ :=
        List.exists_cons_of_ne_nil (Split_ne_nil (enum.joinCS (q :: qs)) ',')
      have hslice : strings.Split (' ' :: enum.joinCS (q :: qs)) ',' = (' ' :: h0) :: t0 := by
        simp only [strings.Split, hsp]
        simp [show (' ' : Char) ≠ ',' by decide]
      show (strings.Split (p ++ (',' :: ' ' :: enum.joinCS (q :: qs))) ',').map
          strings.TrimSpace = p :: q :: qs
      rw [Split_append_sep p (fun c hc => (hp.2 c hc).1) _, hslice]
      rw [hsp] at htail
      simp only [List.map_cons, List.cons.injEq] at htail ⊢
      refine ⟨TrimSpace_no_space fun c hc => (hp.2 c hc).2, ?_, htail.2⟩
      rw [TrimSpace_cons_space, htail.1]

end SplitJoin

section MethodsBridge

theorem symbolsOf_nil {α : Type} : enum.symbolsOf ([] : List (enum.Method α)) = [] := rfl

theorem symbolsOf_cons_symbol {α : Type} (n : Str) (v : α) (rest : List (enum.Method α)) :
    enum.symbolsOf (enum.Method.symbol n v :: rest) = (n, v) :: enum.symbolsOf rest := rfl

theorem symbolsOf_cons_other {α : Type} (n : Str) (cc : Option α)
    (rest : List (enum.Method α)) :
    enum.symbolsOf (enum.Method.other n cc :: rest) = enum.symbolsOf rest := rfl

theorem mem_symbolsOf {α : Type} {methods : List (enum.Method α)} {n : Str} {v : α} :
    (n, v) ∈ enum.symbolsOf methods ↔ enum.Method.symbol n v ∈ methods := by
  induction methods with
  | nil => simp [enum.symbolsOf]
  | cons m rest ih =>
    cases m with
    | symbol n2 v2 =>
      rw [symbolsOf_cons_symbol, List.mem_cons, List.mem_cons, ih]
      simp [Prod.ext_iff]
    | other n2 cc =>
      rw [symbolsOf_cons_other, List.mem_cons, ih]
      simp

theorem getSymbolsAux_eq_symRun {α σ : Type} (esi : σ → Str → α → σ × Bool) :
    ∀ (methods : List (enum.Method α)) (st : σ),
      enum.getSymbolsAux esi methods st = enum.symRun esi (enum.symbolsOf methods) st := by
  intro methods
  induction methods with
  | nil => intro st; rfl
  | cons m rest ih =>
    intro st
    cases m with
    | other n cc =>
      rw [symbolsOf_cons_other]
      show enum.getSymbolsAux esi rest st = _
      exact ih st
    | symbol n v =>
      rw [symbolsOf_cons_symbol]
      show (let r := esi st n v; if r.2 then r.1 else enum.getSymbolsAux esi rest r.1) =
        (let r := esi st n v; if r.2 then r.1 else enum.symRun esi (enum.symbolsOf rest) r.1)
      dsimp only
      by_cases h : (esi st n v).2 = true
      · simp [h]
      · simp only [Bool.not_eq_true] at h
        simp [h, ih]

theorem GetSymbols_eq_symRun {α σ : Type} (et : enum.EnumType α)
    (esi : σ → Str → α → σ × Bool) (st : σ) :
    enum.GetSymbols et esi st = enum.symRun esi et.symbols st :=
  getSymbolsAux_eq_symRun esi et.methods st

theorem symbols_names_exported {α : Type} {et : enum.EnumType α}
    (h : ∀ m ∈ et.methods, isExportedName m.name = true) :
    ∀ p ∈ et.symbols, isExportedName p.1 = true := by
  intro p hp
  exact h _ (mem_symbolsOf.mp hp)

end MethodsBridge

section EnumFormatterFacts

theorem symRun_String_skip {α : Type} [DecidableEq α] (v : α) :
    ∀ (syms : List (Str × α)) (st : Str), (∀ p ∈ syms, p.2 ≠ v) →
      enum.symRun
        (fun symbolResult symbol value =>
          if value = v then (symbol, true) else (symbolResult, false)) syms st = st := by
  intro syms
  induction syms with
  | nil => intro st _; rfl
  | cons p rest ih =>
    intro st h
    show (let r := if p.2 = v then (p.1, true) else (st, false);
      if r.2 then r.1 else enum.symRun _ rest r.1) = st
    rw [if_neg (h p (List.mem_cons_self p rest))]
    exact ih st fun q hq => h q (List.mem_cons_of_mem p hq)

theorem String_no_match {α : Type} [DecidableEq α] (et : enum.EnumType α) (v : α)
    (h : ∀ p ∈ et.symbols, p.2 ≠ v) : enum.String v et = [] := by
  unfold enum.String
  rw [GetSymbols_eq_symRun]
  exact symRun_String_skip v et.symbols [] h

theorem StringInt_no_match (et : enum.EnumType Int) (v : Int)
    (h : ∀ p ∈ et.symbols, p.2 ≠ v) : enum.StringInt v et = fmt.sprintfInt v := by
  unfold enum.StringInt
  rw [String_no_match et v h]
  simp

theorem symRun_flags_zero :
    ∀ (syms : List (Str × Nat)) (b : Nat) (acc : Str),
      enum.symRun (enum.flagsCallback 0) syms (b, acc) =
        match syms.find? (fun p => p.2 == 0) with
        | some p => (b, acc ++ p.1)
        | none => (b, acc) := by
  intro syms
  induction syms with
  | nil => intro b acc; rfl
  | cons p rest ih =>
    intro b acc
    by_cases hp : p.2 = 0
    · show (let r := enum.flagsCallback 0 (b, acc) p.1 p.2;
        if r.2 then r.1 else enum.symRun _ rest r.1) = _
      rw [show enum.flagsCallback 0 (b, acc) p.1 p.2 = ((b, acc ++ p.1), true) by
        unfold enum.flagsCallback; rw [if_pos ⟨rfl, hp⟩]]
      simp [List.find?_cons, hp]
    · show (let r := enum.flagsCallback 0 (b, acc) p.1 p.2;
        if r.2 then r.1 else enum.symRun _ rest r.1) = _
      rw [show enum.flagsCallback 0 (b, acc) p.1 p.2 = ((b, acc), false) by
        unfold enum.flagsCallback
        rw [if_neg (fun hc => hp hc.2), if_neg (by
          rintro ⟨h1, h2⟩
          rw [Nat.zero_and] at h2
          exact h1 h2.symm)]]
      dsimp only
      rw [if_neg (by decide : ¬(false = true)), ih b acc]
      simp [List.find?_cons, hp]

theorem StringUintFlags_zero (et : enum.EnumType Nat) (base : Nat) :
    enum.StringUintFlags 0 et base =
      match et.symbols.find? (fun p => p.2 == 0) with
      | some p => p.1
      | none => [] := by
  unfold enum.StringUintFlags
  rw [GetSymbols_eq_symRun,
    show ((0, []) : Nat × Str) = ((0 : Nat), ([] : Str)) from rfl,
    symRun_flags_zero et.symbols 0 []]
  cases hf : et.symbols.find? (fun p => p.2 == 0) with
  | none => rfl
  | some p => simp

theorem symRun_flags_pos (v : Nat) (hv : v ≠ 0) :
    ∀ (syms : List (Str × Nat)), (∀ p ∈ syms, p.1 ≠ []) →
      ∀ (b : Nat) (ns : List Str), (∀ n ∈ ns, n ≠ []) →
        enum.symRun (enum.flagsCallback v) syms (b, enum.joinCS ns) =
          ((enum.matchedSyms v syms).foldl (fun a p => a ||| p.2) b,
            enum.joinCS (ns ++ (enum.matchedSyms v syms).map Prod.fst)) := by
  intro syms
  induction syms with
  | nil =>
    intro _ b ns _
    simp [enum.symRun, enum.matchedSyms]
  | cons p rest ih =>
    intro hn b ns hns
    by_cases hm : p.2 ≠ 0 ∧ v &&& p.2 = p.2
    · have hstep : enum.flagsCallback v (b, enum.joinCS ns) p.1 p.2 =
          ((b ||| p.2, enum.joinCS (ns ++ [p.1])), false) := by
        unfold enum.flagsCallback
        rw [if_neg (fun hc => hv hc.1), if_pos hm]
        refine congrArg (fun z => ((b ||| p.2, z), false)) ?_
        rw [joinCS_append_singleton]
        by_cases hns0 : ns = []
        · subst hns0
          simp [enum.joinCS]
        · rw [if_neg hns0]
          have hjne : enum.joinCS ns ≠ [] := joinCS_ne_nil hns hns0
          rw [if_pos (by
            cases hj : enum.joinCS ns with
            | nil => exact absurd hj hjne
            | cons a as => simp)]
          simp
      show (let r := enum.flagsCallback v (b, enum.joinCS ns) p.1 p.2;
        if r.2 then r.1 else enum.symRun _ rest r.1) = _
      rw [hstep]
      show enum.symRun (enum.flagsCallback v) rest (b ||| p.2, enum.joinCS (ns ++ [p.1])) = _
      rw [ih (fun q hq => hn q (List.mem_cons_of_mem p hq)) (b ||| p.2) (ns ++ [p.1]) (by
        intro n hn2
        rcases List.mem_append.mp hn2 with h2 | h2
        · exact hns n h2
        · rw [List.mem_singleton.mp h2]
          exact hn p (List.mem_cons_self p rest))]
      have hfil : enum.matchedSyms v (p :: rest) = p :: enum.matchedSyms v rest := by
        unfold enum.matchedSyms
        rw [List.filter_cons_of_pos]
        simp only [Bool.and_eq_true, bne_iff_ne, ne_eq, beq_iff_eq]
        exact ⟨hm.1, hm.2⟩
      rw [hfil]
      simp [List.append_assoc]
    · have hstep : enum.flagsCallback v (b, enum.joinCS ns) p.1 p.2 =
          ((b, enum.joinCS ns), false) := by
        unfold enum.flagsCallback
        rw [if_neg (fun hc => hv hc.1), if_neg hm]
      show (let r := enum.flagsCallback v (b, enum.joinCS ns) p.1 p.2;
        if r.2 then r.1 else enum.symRun _ rest r.1) = _
      rw [hstep]
      show enum.symRun (enum.flagsCallback v) rest (b, enum.joinCS ns) = _
      rw [ih (fun q hq => hn q (List.mem_cons_of_mem p hq)) b ns hns]
      have hfil : enum.matchedSyms v (p :: rest) = enum.matchedSyms v rest := by
        unfold enum.matchedSyms
        rw [List.filter_cons_of_neg]
        simp only [Bool.and_eq_true, bne_iff_ne, ne_eq, beq_iff_eq]
        exact fun hc => hm ⟨hc.1, hc.2⟩
      rw [hfil]

end EnumFormatterFacts

section BitFacts

theorem and_or_absorb {v a c : Nat} (h1 : v &&& a = a) (h2 : v &&& c = c) :
    v &&& (a ||| c) = a ||| c := by
  apply Nat.eq_of_testBit_eq
  intro i
  have e1 : (v.testBit i && a.testBit i) = a.testBit i := by
    rw [← Nat.testBit_and, h1]
  have e2 : (v.testBit i && c.testBit i) = c.testBit i := by
    rw [← Nat.testBit_and, h2]
  rw [Nat.testBit_and, Nat.testBit_or]
  cases hv : v.testBit i <;> simp_all

theorem foldl_or_absorb {v : Nat} :
    ∀ (l : List (Str × Nat)), (∀ p ∈ l, v &&& p.2 = p.2) →
      ∀ b, v &&& b = b →
        v &&& (l.foldl (fun a p => a ||| p.2) b) = l.foldl (fun a p => a ||| p.2) b := by
  intro l
  induction l with
  | nil => intro _ b hb; exact hb
  | cons p rest ih =>
    intro h b hb
    exact ih (fun q hq => h q (List.mem_cons_of_mem p hq)) (b ||| p.2)
      (and_or_absorb hb (h p (List.mem_cons_self p rest)))

theorem mem_matchedSyms_and {v : Nat} {p : Str × Nat} {syms : List (Str × Nat)}
    (hp : p ∈ enum.matchedSyms v syms) : v &&& p.2 = p.2 := by
  have := List.of_mem_filter hp
  simp only [Bool.and_eq_true, beq_iff_eq] at this
  exact this.2

theorem matchedBits_sub {v : Nat} (syms : List (Str × Nat)) :
    v &&& enum.matchedBits v syms = enum.matchedBits v syms :=
  foldl_or_absorb (enum.matchedSyms v syms) (fun _ hp => mem_matchedSyms_and hp) 0
    (Nat.and_zero v)

theorem or_xor_of_sub {v m : Nat} (h : v &&& m = m) : m ||| (v ^^^ m) = v := by
  apply Nat.eq_of_testBit_eq
  intro i
  have e1 : (v.testBit i && m.testBit i) = m.testBit i := by
    rw [← Nat.testBit_and, h]
  rw [Nat.testBit_or, Nat.testBit_xor]
  cases _hv : v.testBit i <;> simp_all

theorem le_of_and_eq {v m : Nat} (h : v &&& m = m) : m ≤ v := by
  calc m = v &&& m := h.symm
  _ ≤ v := Nat.and_le_left

end BitFacts

section ParserFacts

theorem isGoIdentChar_iff {c : Char} :
    isGoIdentChar c = true ↔
      (65 ≤ c.toNat ∧ c.toNat ≤ 90) ∨ (97 ≤ c.toNat ∧ c.toNat ≤ 122) ∨
        (48 ≤ c.toNat ∧ c.toNat ≤ 57) ∨ c = '_' := by
  simp [isGoIdentChar]

theorem exportedName_chars {s : Str} (h : isExportedName s = true) :
    ∀ c ∈ s, c ≠ ',' ∧ strings.isSpace c = false := by
  cases s with
  | nil => intro c hc; simp at hc
  | cons c0 rest =>
    simp only [isExportedName, Bool.and_eq_true] at h
    intro c hc
    have hrange : 48 ≤ c.toNat ∧ c.toNat ≤ 122 := by
      rcases List.mem_cons.mp hc with rfl | hm
      · have := isGoUpper_iff.mp h.1
        omega
      · have h2 := List.all_eq_true.mp h.2 c hm
        rcases isGoIdentChar_iff.mp h2 with h3 | h3 | h3 | rfl
        · omega
        · omega
        · omega
        · exact ⟨by decide, by decide⟩
    refine ⟨?_, isSpace_false_of_toNat hrange.1 hrange.2⟩
    apply char_ne_of_toNat_ne
    have hcm : (',').toNat = 44 := rfl
    omega

theorem exportedName_ne_nil {s : Str} (h : isExportedName s = true) : s ≠ [] := by
  cases s with
  | nil => simp [isExportedName] at h
  | cons c0 rest => simp

theorem MethodByName_of_mem {α : Type} :
    ∀ {methods : List (enum.Method α)} {m : enum.Method α},
      (methods.map enum.Method.name).Nodup → m ∈ methods →
      enum.MethodByName methods m.name = some m := by
  intro methods
  induction methods with
  | nil => intro m _ hm; simp at hm
  | cons q rest ih =>
    intro m hnd hm
    rw [List.map_cons, List.nodup_cons] at hnd
    by_cases hq : q.name = m.name
    · have hpq : m = q := by
        rcases List.mem_cons.mp hm with rfl | hmem
        · rfl
        · exact absurd (show q.name ∈ rest.map enum.Method.name by
            rw [hq]; exact List.mem_map_of_mem enum.Method.name hmem) hnd.1
      unfold enum.MethodByName
      rw [List.find?_cons_of_pos _ (by simp [hq])]
      rw [hpq]
    · rcases List.mem_cons.mp hm with rfl | hmem
      · exact absurd rfl hq
      · unfold enum.MethodByName
        rw [List.find?_cons_of_neg _ (by simp [hq])]
        exact ih hnd.2 hmem

theorem findMethodCI_of_mem {α : Type} :
    ∀ {methods : List (enum.Method α)} {m : enum.Method α},
      ((methods.map enum.Method.name).map strings.ToLower).Nodup → m ∈ methods →
      enum.findMethodCI methods (strings.ToLower m.name) = some m := by
  intro methods
  induction methods with
  | nil => intro m _ hm; simp at hm
  | cons q rest ih =>
    intro m hnd hm
    rw [List.map_cons, List.map_cons, List.nodup_cons] at hnd
    by_cases hq : strings.ToLower q.name = strings.ToLower m.name
    · have hpq : m = q := by
        rcases List.mem_cons.mp hm with rfl | hmem
        · rfl
        · exact absurd
            (show strings.ToLower q.name ∈ (rest.map enum.Method.name).map strings.ToLower by
              rw [hq]
              exact List.mem_map_of_mem strings.ToLower
                (List.mem_map_of_mem enum.Method.name hmem)) hnd.1
      unfold enum.findMethodCI
      rw [if_pos hq, hpq]
    · rcases List.mem_cons.mp hm with rfl | hmem
      · exact absurd rfl hq
      · unfold enum.findMethodCI
        rw [if_neg hq]
        exact ih hnd.2 hmem

theorem findMethod_of_mem {α : Type} (et : enum.EnumType α) {m : enum.Method α}
    (hnd : ((et.methods.map enum.Method.name).map strings.ToLower).Nodup)
    (hm : m ∈ et.methods) (ci : Bool) : enum.findMethod et m.name ci = some m := by
  cases ci with
  | false =>
    show enum.MethodByName et.methods m.name = some m
    exact MethodByName_of_mem hnd.of_map hm
  | true =>
    show enum.findMethodCI et.methods (strings.ToLower m.name) = some m
    exact findMethodCI_of_mem hnd hm

theorem Parse_found_ok {α : Type} {et : enum.EnumType α} {s : Str} {ci : Bool}
    {m : enum.Method α} {v : α} (h : enum.findMethod et s ci = some m)
    (hcc : m.callConvert = some v) :
    enum.Parse et s ci = .ok (some v, none) := by
  unfold enum.Parse
  rw [h]
  dsimp only
  rw [hcc]

theorem Parse_of_findMethod_none {α : Type} {et : enum.EnumType α} {s : Str} {ci : Bool}
    (h : enum.findMethod et s ci = none) :
    enum.Parse et s ci = .ok (none, some ⟨s, et.name⟩) := by
  unfold enum.Parse
  rw [h]

theorem parseUintFlagsAux_resolved (et : enum.EnumType Nat) (ci : Bool) :
    ∀ {pieces : List Str} {rs : List Nat},
      List.Forall₂ (fun piece r =>
        (∃ m, enum.findMethod et (strings.TrimSpace piece) ci = some m ∧
            enum.Method.callConvert m = some r) ∨
          (enum.findMethod et (strings.TrimSpace piece) ci = none ∧
            strconv.ParseUint (strings.TrimSpace piece) 0 et.bits = some r)) pieces rs →
      ∀ val, enum.parseUintFlagsAux et ci pieces val =
        .ok (rs.foldl (fun a r => a ||| r) val, none) := by
  intro pieces rs hf
  induction hf with
  | nil => intro val; rfl
  | @cons piece r prest rrest hpr hrest ih =>
    intro val
    unfold enum.parseUintFlagsAux
    dsimp only
    rcases hpr with ⟨m, hm, hcc⟩ | ⟨hnone, hpu⟩
    · rw [Parse_found_ok hm hcc]
      exact ih (val ||| r)
    · rw [Parse_of_findMethod_none hnone]
      dsimp only
      rw [hpu]
      exact ih (val ||| r)

theorem parseUintFlagsAux_err (et : enum.EnumType Nat) (ci : Bool) :
    ∀ (pieces : List Str) (val : Nat) (bad : Str),
      (∀ q ∈ pieces.map strings.TrimSpace,
        (enum.findMethod et q ci).all (fun m => m.callConvert.isSome) = true) →
      (pieces.map strings.TrimSpace).find? (fun p =>
          (enum.findMethod et p ci).isNone && (strconv.ParseUint p 0 et.bits).isNone) =
        some bad →
      enum.parseUintFlagsAux et ci pieces val = .ok (0, some ⟨bad, et.name⟩) := by
  intro pieces
  induction pieces with
  | nil => intro val bad _ h; simp at h
  | cons piece rest ih =>
    intro val bad hnp h
    rw [List.map_cons] at h hnp
    have hnp0 := hnp (strings.TrimSpace piece) (List.mem_cons_self _ _)
    have hnprest : ∀ q ∈ rest.map strings.TrimSpace,
        (enum.findMethod et q ci).all (fun m => m.callConvert.isSome) = true :=
      fun q hq => hnp q (List.mem_cons_of_mem _ hq)
    by_cases hbad : ((enum.findMethod et (strings.TrimSpace piece) ci).isNone &&
        (strconv.ParseUint (strings.TrimSpace piece) 0 et.bits).isNone) = true
    · rw [@List.find?_cons_of_pos Str
        (fun q => (enum.findMethod et q ci).isNone && (strconv.ParseUint q 0 et.bits).isNone)
        (strings.TrimSpace piece) (rest.map strings.TrimSpace) hbad] at h
      have hbad2 : (enum.findMethod et (strings.TrimSpace piece) ci).isNone = true ∧
          (strconv.ParseUint (strings.TrimSpace piece) 0 et.bits).isNone = true := by
        simpa using hbad
      have hfm : enum.findMethod et (strings.TrimSpace piece) ci = none :=
        Option.isNone_iff_eq_none.mp hbad2.1
      have hpu : strconv.ParseUint (strings.TrimSpace piece) 0 et.bits = none :=
        Option.isNone_iff_eq_none.mp hbad2.2
      unfold enum.parseUintFlagsAux
      dsimp only
      rw [Parse_of_findMethod_none hfm]
      dsimp only
      rw [hpu]
      rw [Option.some.injEq] at h
      rw [h]
    · rw [@List.find?_cons_of_neg Str
        (fun q => (enum.findMethod et q ci).isNone && (strconv.ParseUint q 0 et.bits).isNone)
        (strings.TrimSpace piece) (rest.map strings.TrimSpace) hbad] at h
      have hres : ¬((enum.findMethod et (strings.TrimSpace piece) ci).isNone = true ∧
          (strconv.ParseUint (strings.TrimSpace piece) 0 et.bits).isNone = true) := by
        intro hc
        exact hbad (by simp only [Bool.and_eq_true]; exact hc)
      unfold enum.parseUintFlagsAux
      dsimp only
      cases hfm : enum.findMethod et (strings.TrimSpace piece) ci with
      | some m =>
        have hcs : m.callConvert.isSome = true := by
          rw [hfm] at hnp0
          simpa using hnp0
        obtain ⟨v, hv⟩ := Option.isSome_iff_exists.mp hcs
        rw [Parse_found_ok hfm hv]
        exact ih _ bad hnprest h
      | none =>
        rw [Parse_of_findMethod_none hfm]
        dsimp only
        cases hpu : strconv.ParseUint (strings.TrimSpace piece) 0 et.bits with
        | some i => exact ih _ bad hnprest h
        | none =>
          exact absurd ⟨by rw [hfm]; rfl, by rw [hpu]; rfl⟩ hres

end ParserFacts

section FlagsCharacterization

theorem builder_append_eq_joinCS {ns : List Str} (hns : ∀ n ∈ ns, n ≠ []) (x : Str) :
    (if (enum.joinCS ns).length > 0 then enum.joinCS ns ++ [',', ' '] else enum.joinCS ns) ++ x =
      enum.joinCS (ns ++ [x]) := by
  rw [joinCS_append_singleton]
  by_cases hns0 : ns = []
  · subst hns0
    simp [enum.joinCS]
  · rw [if_neg hns0]
    have hjne : enum.joinCS ns ≠ [] := joinCS_ne_nil hns hns0
    rw [if_pos (by
      cases hj : enum.joinCS ns with
      | nil => exact absurd hj hjne
      | cons a as => simp)]
    simp

theorem StringUintFlags_pos (et : enum.EnumType Nat) (v : Nat) (hv : v ≠ 0) (base : Nat)
    (hn : ∀ p ∈ et.symbols, p.1 ≠ []) :
    enum.StringUintFlags v et base =
      enum.joinCS ((enum.matchedSyms v et.symbols).map Prod.fst ++
        (if enum.matchedBits v et.symbols = v then []
         else ['0' :: 'x' :: strconv.FormatUint (v ^^^ enum.matchedBits v et.symbols) base])) := by
  unfold enum.StringUintFlags
  rw [GetSymbols_eq_symRun]
  have haux := symRun_flags_pos v hv et.symbols hn 0 [] (by intro n h; simp at h)
  rw [show ((0 : Nat), ([] : Str)) = ((0 : Nat), enum.joinCS []) from rfl, haux]
  rw [List.nil_append]
  have hmb : (enum.matchedSyms v et.symbols).foldl (fun a p => a ||| p.2) 0 =
      enum.matchedBits v et.symbols := rfl
  dsimp only
  rw [hmb]
  by_cases hbv : enum.matchedBits v et.symbols = v
  · rw [if_neg (by simpa using hbv), if_pos hbv, List.append_nil]
  · rw [if_pos hbv, if_neg hbv]
    exact builder_append_eq_joinCS
      (fun n hn2 => by
        obtain ⟨p, hp, rfl⟩ := List.mem_map.mp hn2
        exact hn p (List.mem_of_mem_filter hp))
      ('0' :: 'x' :: strconv.FormatUint (v ^^^ enum.matchedBits v et.symbols) base)

theorem findMethod_none_nil {α : Type} (et : enum.EnumType α)
    (hnames : ∀ m ∈ et.methods, isExportedName m.name = true) (ci : Bool) :
    enum.findMethod et [] ci = none := by
  cases ci with
  | false =>
    show enum.MethodByName et.methods [] = none
    apply List.find?_eq_none.mpr
    intro m hm
    obtain ⟨c0, r0, heq, _, _⟩ := exportedName_shape (hnames m hm)
    simp [heq]
  | true =>
    show enum.findMethodCI et.methods (strings.ToLower []) = none
    apply findMethodCI_eq_none
    intro m hm
    obtain ⟨c0, r0, heq, _, _⟩ := exportedName_shape (hnames m hm)
    simp [heq, strings.ToLower]

theorem foldl_or_map_snd (l : List (Str × Nat)) (b : Nat) :
    (l.map Prod.snd).foldl (fun a r => a ||| r) b = l.foldl (fun a p => a ||| p.2) b := by
  rw [List.foldl_map]

theorem matchedBits_pos_of_eq {v : Nat} (hv : v ≠ 0) {syms : List (Str × Nat)}
    (h : enum.matchedBits v syms = v) : enum.matchedSyms v syms ≠ [] := by
  intro hnil
  rw [enum.matchedBits, hnil] at h
  exact hv (h ▸ rfl)

theorem matchedBits_le {v : Nat} (syms : List (Str × Nat)) :
    enum.matchedBits v syms ≤ v :=
  le_of_and_eq (matchedBits_sub syms)

end FlagsCharacterization

section FlagsRoundTrip

theorem remstr_chars {rem : Nat} (base : Nat) (hb2 : 2 ≤ base) (hb36 : base ≤ 36) :
    ∀ c ∈ ('0' :: 'x' :: strconv.FormatUint rem base), c ≠ ',' ∧ strings.isSpace c = false := by
  intro c hc
  rcases List.mem_cons.mp hc with rfl | hc2
  · exact ⟨by decide, by decide⟩
  rcases List.mem_cons.mp hc2 with rfl | hc3
  · exact ⟨by decide, by decide⟩
  rcases formatUintAux_mem base hb2 rem rem [] c (le_refl rem) hc3 with ⟨d, hd, rfl⟩ | h
  · exact ⟨digitChar_ne_comma (by omega), isSpace_digitChar (by omega)⟩
  · simp at h

theorem flags_roundtrip_pos (et : enum.EnumType Nat) (v : Nat) (ci : Bool) (hv : v ≠ 0)
    (hbits1 : 1 ≤ et.bits) (hbits2 : et.bits ≤ 64) (hvlt : v < 2 ^ et.bits)
    (hnames : ∀ m ∈ et.methods, isExportedName m.name = true)
    (hnd : ((et.methods.map enum.Method.name).map strings.ToLower).Nodup) :
    enum.ParseUintFlags et (enum.StringUintFlags v et 16) ci = .ok (v, none) := by
  have hsym : ∀ p ∈ et.symbols, isExportedName p.1 = true := symbols_names_exported hnames
  have hn : ∀ p ∈ et.symbols, p.1 ≠ [] := fun p hp => exportedName_ne_nil (hsym p hp)
  have hfmt := StringUintFlags_pos et v hv 16 hn
  have hmble : enum.matchedBits v et.symbols ≤ v := matchedBits_le et.symbols
  have hremlt : v ^^^ enum.matchedBits v et.symbols ≤ 2 ^ et.bits - 1 := by
    have := Nat.xor_lt_two_pow hvlt (by omega : enum.matchedBits v et.symbols < 2 ^ et.bits)
    omega
  have hok : ∀ p ∈ ((enum.matchedSyms v et.symbols).map Prod.fst ++
      (if enum.matchedBits v et.symbols = v then []
       else ['0' :: 'x' :: strconv.FormatUint (v ^^^ enum.matchedBits v et.symbols) 16])),
      p ≠ [] ∧ ∀ c ∈ p, c ≠ ',' ∧ strings.isSpace c = false := by
    intro p hp
    rcases List.mem_append.mp hp with hp1 | hp1
    · obtain ⟨q, hq, rfl⟩ := List.mem_map.mp hp1
      have hqs : q ∈ et.symbols := List.mem_of_mem_filter hq
      exact ⟨exportedName_ne_nil (hsym q hqs), exportedName_chars (hsym q hqs)⟩
    · by_cases hmb : enum.matchedBits v et.symbols = v
      · rw [if_pos hmb] at hp1
        simp at hp1
      · rw [if_neg hmb] at hp1
        rw [List.mem_singleton.mp hp1]
        exact ⟨by simp, remstr_chars 16 (by omega) (by omega)⟩
  have hne : ((enum.matchedSyms v et.symbols).map Prod.fst ++
      (if enum.matchedBits v et.symbols = v then []
       else ['0' :: 'x' :: strconv.FormatUint (v ^^^ enum.matchedBits v et.symbols) 16])) ≠ [] := by
    by_cases hmb : enum.matchedBits v et.symbols = v
    · rw [if_pos hmb, List.append_nil]
      have := matchedBits_pos_of_eq hv hmb
      simp only [ne_eq, List.map_eq_nil_iff]
      exact this
    · rw [if_neg hmb]
      simp
  have hsplit := split_trim_joinCS _ hne hok
  have hforall2 : List.Forall₂ (fun (part : Str) (r : Nat) =>
      (∃ m, enum.findMethod et part ci = some m ∧ enum.Method.callConvert m = some r) ∨
        (enum.findMethod et part ci = none ∧
          strconv.ParseUint part 0 et.bits = some r))
      ((enum.matchedSyms v et.symbols).map Prod.fst ++
        (if enum.matchedBits v et.symbols = v then []
         else ['0' :: 'x' :: strconv.FormatUint (v ^^^ enum.matchedBits v et.symbols) 16]))
      ((enum.matchedSyms v et.symbols).map Prod.snd ++
        (if enum.matchedBits v et.symbols = v then []
         else [v ^^^ enum.matchedBits v et.symbols])) := by
    apply List.rel_append
    · rw [List.forall₂_map_left_iff, List.forall₂_map_right_iff]
      apply List.forall₂_same.mpr
      intro q hq
      exact Or.inl ⟨.symbol q.1 q.2,
        findMethod_of_mem et hnd (mem_symbolsOf.mp (List.mem_of_mem_filter hq)) ci, rfl⟩
    · by_cases hmb : enum.matchedBits v et.symbols = v
      · rw [if_pos hmb, if_pos hmb]
        exact List.Forall₂.nil
      · rw [if_neg hmb, if_neg hmb]
        refine List.Forall₂.cons (Or.inr ⟨?_, ?_⟩) List.Forall₂.nil
        · exact findMethod_none_of_head_small et hnames (by decide) ci
        · exact ParseUint_hex_tagged hbits1 hbits2 hremlt
  have hforall : List.Forall₂ (fun (piece : Str) (r : Nat) =>
      (∃ m, enum.findMethod et (strings.TrimSpace piece) ci = some m ∧
          enum.Method.callConvert m = some r) ∨
        (enum.findMethod et (strings.TrimSpace piece) ci = none ∧
          strconv.ParseUint (strings.TrimSpace piece) 0 et.bits = some r))
      (strings.Split (enum.joinCS ((enum.matchedSyms v et.symbols).map Prod.fst ++
        (if enum.matchedBits v et.symbols = v then []
         else ['0' :: 'x' :: strconv.FormatUint (v ^^^ enum.matchedBits v et.symbols) 16]))) ',')
      ((enum.matchedSyms v et.symbols).map Prod.snd ++
        (if enum.matchedBits v et.symbols = v then []
         else [v ^^^ enum.matchedBits v et.symbols])) := by
    rw [← hsplit] at hforall2
    exact List.forall₂_map_left_iff.mp hforall2
  have hparse := parseUintFlagsAux_resolved et ci hforall 0
  rw [hfmt]
  show enum.parseUintFlagsAux et ci (strings.Split _ ',') 0 = .ok (v, none)
  rw [hparse]
  have hfold : (((enum.matchedSyms v et.symbols).map Prod.snd ++
      (if enum.matchedBits v et.symbols = v then []
       else [v ^^^ enum.matchedBits v et.symbols])).foldl (fun a r => a ||| r) 0) = v := by
    rw [List.foldl_append]
    rw [foldl_or_map_snd]
    have hmbdef : (enum.matchedSyms v et.symbols).foldl (fun a p => a ||| p.2) 0 =
        enum.matchedBits v et.symbols := rfl
    rw [hmbdef]
    by_cases hmb : enum.matchedBits v et.symbols = v
    · rw [if_pos hmb]
      exact hmb
    · rw [if_neg hmb]
      show enum.matchedBits v et.symbols ||| (v ^^^ enum.matchedBits v et.symbols) = v
      exact or_xor_of_sub (matchedBits_sub et.symbols)
  rw [hfold]

end FlagsRoundTrip

section ZeroAndScalar

theorem flags_roundtrip_zero_found (et : enum.EnumType Nat) (ci : Bool)
    (hnames : ∀ m ∈ et.methods, isExportedName m.name = true)
    (hnd : ((et.methods.map enum.Method.name).map strings.ToLower).Nodup) (base : Nat)
    {p : Str × Nat} (hf : et.symbols.find? (fun q => q.2 == 0) = some p) :
    enum.ParseUintFlags et (enum.StringUintFlags 0 et base) ci = .ok (0, none) := by
  have hp : p ∈ et.symbols := List.mem_of_find?_eq_some hf
  have hp2 : p.2 = 0 := by simpa using List.find?_some hf
  have hch := exportedName_chars (symbols_names_exported hnames p hp)
  rw [StringUintFlags_zero et base, hf]
  show enum.ParseUintFlags et p.1 ci = .ok (0, none)
  have hforall : List.Forall₂ (fun (piece : Str) (r : Nat) =>
      (∃ m, enum.findMethod et (strings.TrimSpace piece) ci = some m ∧
          enum.Method.callConvert m = some r) ∨
        (enum.findMethod et (strings.TrimSpace piece) ci = none ∧
          strconv.ParseUint (strings.TrimSpace piece) 0 et.bits = some r)) [p.1] [p.2] := by
    refine List.Forall₂.cons (Or.inl ⟨.symbol p.1 p.2, ?_, rfl⟩) List.Forall₂.nil
    rw [TrimSpace_no_space fun c hc => (hch c hc).2]
    exact findMethod_of_mem et hnd (mem_symbolsOf.mp hp) ci
  show enum.parseUintFlagsAux et ci (strings.Split p.1 ',') 0 = .ok (0, none)
  rw [Split_no_sep p.1 fun c hc => (hch c hc).1]
  rw [parseUintFlagsAux_resolved et ci hforall 0]
  simp [hp2]

theorem ParseUintFlags_empty (et : enum.EnumType Nat) (ci : Bool)
    (hnames : ∀ m ∈ et.methods, isExportedName m.name = true) :
    enum.ParseUintFlags et [] ci = .ok (0, some ⟨[], et.name⟩) := by
  show enum.parseUintFlagsAux et ci (strings.Split [] ',') 0 = _
  rw [show strings.Split ([] : Str) ',' = [[]] from rfl]
  have h1 : enum.findMethod et [] ci = none := findMethod_none_nil et hnames ci
  have h2 : strconv.ParseUint [] 0 et.bits = none := rfl
  apply parseUintFlagsAux_err et ci [[]] 0 []
  · intro q hq
    rw [show (([([] : Str)]).map strings.TrimSpace) = [[]] from rfl] at hq
    rw [List.mem_singleton.mp hq, h1]
    rfl
  · rw [show (([([] : Str)]).map strings.TrimSpace) = [[]] from rfl]
    exact @List.find?_cons_of_pos Str
      (fun q => (enum.findMethod et q ci).isNone && (strconv.ParseUint q 0 et.bits).isNone)
      [] [] (by
        show ((enum.findMethod et [] ci).isNone &&
          (strconv.ParseUint [] 0 et.bits).isNone) = true
        rw [h1, h2]
        rfl)

theorem natAbs_le_of_range {v : Int} {K : Nat} (hlo : -(K : Int) ≤ v) (hneg : v < 0) :
    v.natAbs ≤ K := by omega

theorem goParseInt_sprintf {v : Int} {bs : Nat} (h1 : 1 ≤ bs) (h64 : bs ≤ 64)
    (hlo : -((2 ^ (bs - 1) : Nat) : Int) ≤ v) (hhi : v < ((2 ^ (bs - 1) : Nat) : Int)) :
    strconv.ParseInt (fmt.sprintfInt v) 0 bs = some v := by
  have hcut : 2 ^ (bs - 1) ≤ 2 ^ bs - 1 := by
    have h2 : 2 ^ bs = 2 * 2 ^ (bs - 1) := by
      rw [← pow_succ']
      congr 1
      omega
    have h3 : 1 ≤ 2 ^ (bs - 1) := Nat.one_le_two_pow
    omega
  by_cases hneg : v < 0
  · have hs : fmt.sprintfInt v = '-' :: strconv.FormatUint v.natAbs 10 := by
      unfold fmt.sprintfInt
      rw [if_pos hneg]
    have habs : v.natAbs ≤ 2 ^ (bs - 1) := natAbs_le_of_range hlo hneg
    rw [hs, ParseInt_base0_eq (by simp) h1]
    rw [signSplit_neg]
    dsimp only
    rw [ParseUint_decimal h1 h64 (by omega)]
    dsimp only
    rw [if_neg (by simp), if_neg (by
      rintro ⟨h3, h4⟩
      omega)]
    rw [if_pos rfl]
    refine congrArg some ?_
    omega
  · have hs : fmt.sprintfInt v = strconv.FormatUint v.toNat 10 := by
      unfold fmt.sprintfInt
      rw [if_neg hneg]
    have htn : v.toNat < 2 ^ (bs - 1) := by omega
    obtain ⟨c, rest, heq'⟩ :=
      List.exists_cons_of_ne_nil (formatUintAux_ne_nil 10 v.toNat v.toNat ([] : Str))
    have heq : strconv.FormatUint v.toNat 10 = c :: rest := heq'
    have hcrange : 48 ≤ c.toNat ∧ c.toNat ≤ 57 := by
      have hcmem : c ∈ strconv.FormatUint v.toNat 10 := by
        rw [heq]
        exact List.mem_cons_self c rest
      rcases formatUintAux_mem 10 (by omega) v.toNat v.toNat [] c (le_refl _) hcmem with
        ⟨d, hd, rfl⟩ | h
      · have := toNat_digitChar (show d < 36 by omega)
        rw [if_pos hd] at this
        omega
      · simp at h
    rw [hs, ParseInt_base0_eq (by rw [heq]; simp) h1]
    rw [heq, signSplit_other (by
        apply char_ne_of_toNat_ne
        have : ('+').toNat = 43 := rfl
        omega)
      (by
        apply char_ne_of_toNat_ne
        have : ('-').toNat = 45 := rfl
        omega) rest, ← heq]
    dsimp only
    rw [ParseUint_decimal h1 h64 (by omega)]
    dsimp only
    rw [if_neg (by
      rintro ⟨h3, h4⟩
      omega)]
    rw [if_neg (by simp)]
    rw [if_neg (by simp)]
    refine congrArg some ?_
    omega

theorem goParseUint_sprintf {v : Int} {bs : Nat} (h1 : 1 ≤ bs) (h64 : bs ≤ 64)
    (hlo : 0 ≤ v) (hhi : v < ((2 ^ bs : Nat) : Int)) :
    strconv.ParseUint (fmt.sprintfInt v) 0 bs = some v.toNat := by
  have hs : fmt.sprintfInt v = strconv.FormatUint v.toNat 10 := by
    unfold fmt.sprintfInt
    rw [if_neg (by omega)]
  rw [hs]
  exact ParseUint_decimal h1 h64 (by omega)

end ZeroAndScalar

section ParseIntShapes

theorem ParseInt_found {et : enum.EnumType Int} {s : Str} {ci : Bool}
    {m : enum.Method Int} {v : Int} (h : enum.findMethod et s ci = some m)
    (hcc : m.callConvert = some v) (strict : Bool) :
    enum.ParseInt et s ci strict = .ok (some v, none) := by
  unfold enum.ParseInt
  rw [Parse_found_ok h hcc]
  dsimp only
  rw [if_pos (Or.inl rfl)]

theorem ParseInt_not_found_lenient {et : enum.EnumType Int} {s : Str} {ci : Bool}
    (hfm : enum.findMethod et s ci = none) :
    enum.ParseInt et s ci false =
      if et.signed then
        match strconv.ParseInt s 0 et.bits with
        | some n => .ok (some n, none)
        | none => .ok (none, some ⟨s, et.name⟩)
      else
        match strconv.ParseUint s 0 et.bits with
        | some n => .ok (some (n : Int), none)
        | none => .ok (none, some ⟨s, et.name⟩) := by
  unfold enum.ParseInt
  rw [Parse_of_findMethod_none hfm]
  dsimp only
  rw [if_neg (by simp)]

end ParseIntShapes

section EnumerationShapes

theorem symRun_noStop {α σ : Type} (f : σ → Str → α → σ × Bool) :
    ∀ (syms : List (Str × α)) (st : σ), enum.runContinues f syms st = true →
      enum.symRun f syms st = syms.foldl (fun s m => (f s m.1 m.2).1) st := by
  intro syms
  induction syms with
  | nil => intro st _; rfl
  | cons m rest ih =>
    intro st h
    unfold enum.runContinues at h
    rw [Bool.and_eq_true] at h
    have hstop : (f st m.1 m.2).2 = false := by
      rcases h with ⟨h1, _⟩
      simpa using h1
    show (let r := f st m.1 m.2; if r.2 then r.1 else enum.symRun f rest r.1) = _
    dsimp only
    rw [hstop]
    rw [if_neg (by simp)]
    rw [List.foldl_cons]
    exact ih (f st m.1 m.2).1 h.2

theorem symRun_stopAt {α σ : Type} (f : σ → Str → α → σ × Bool) :
    ∀ (pre : List (Str × α)) (x : Str × α) (post : List (Str × α)) (st : σ),
      enum.runContinues f pre st = true →
      (f (pre.foldl (fun s m => (f s m.1 m.2).1) st) x.1 x.2).2 = true →
      enum.symRun f (pre ++ x :: post) st =
        (f (pre.foldl (fun s m => (f s m.1 m.2).1) st) x.1 x.2).1 := by
  intro pre
  induction pre with
  | nil =>
    intro x post st _ hstop
    rw [List.foldl_nil] at hstop
    show (let r := f st x.1 x.2; if r.2 then r.1 else enum.symRun f post r.1) = _
    dsimp only
    rw [List.foldl_nil, hstop, if_pos rfl]
  | cons m rest ih =>
    intro x post st hrun hstop
    unfold enum.runContinues at hrun
    rw [Bool.and_eq_true] at hrun
    have hstop0 : (f st m.1 m.2).2 = false := by
      rcases hrun with ⟨h1, _⟩
      simpa using h1
    show (let r := f st m.1 m.2;
      if r.2 then r.1 else enum.symRun f (rest ++ x :: post) r.1) = _
    dsimp only
    rw [hstop0]
    rw [if_neg (by simp)]
    rw [List.foldl_cons] at hstop ⊢
    exact ih x post (f st m.1 m.2).1 hrun.2 hstop

end EnumerationShapes

/-- C1 (amended): with base 16 — the one base whose rendering matches the fixed
"0x" tag the formatter writes — formatting any value representable in the
type's bit width with `StringUintFlags` and parsing the output back with
`ParseUintFlags` returns exactly the original value; the parse is error-free
whenever the value is non-zero or the type declares a zero-valued symbol (for
value 0 on a type with no zero-valued symbol the formatter emits the empty
string, whose parse reports an error while still returning 0). -/
theorem C1_flags_roundtrip_base16 (et : enum.EnumType Nat) (v : Nat) (ci : Bool)
    (hbits1 : 1 ≤ et.bits) (hbits2 : et.bits ≤ 64) (hv : v < 2 ^ et.bits)
    (hnames : ∀ m ∈ et.methods, isExportedName m.name = true)
    (hnd : ((et.methods.map enum.Method.name).map strings.ToLower).Nodup) :
    (∃ e, enum.ParseUintFlags et (enum.StringUintFlags v et 16) ci = .ok (v, e)) ∧
      ((v ≠ 0 ∨ ∃ p ∈ et.symbols, p.2 = 0) →
        enum.ParseUintFlags et (enum.StringUintFlags v et 16) ci = .ok (v, none)) := by
  by_cases hv0 : v = 0
  · subst hv0
    cases hf : et.symbols.find? (fun q => q.2 == 0) with
    | some p =>
      have h := flags_roundtrip_zero_found et ci hnames hnd 16 hf
      exact ⟨⟨none, h⟩, fun _ => h⟩
    | none =>
      have hfmt : enum.StringUintFlags 0 et 16 = [] := by
        rw [StringUintFlags_zero et 16, hf]
      have h := ParseUintFlags_empty et ci hnames
      rw [hfmt]
      refine ⟨⟨some ⟨[], et.name⟩, h⟩, ?_⟩
      rintro (h0 | ⟨p, hp, hp2⟩)
      · exact absurd rfl h0
      · have hnone := List.find?_eq_none.mp hf p hp
        simp [hp2] at hnone
  · have h := flags_roundtrip_pos et v ci hv0 hbits1 hbits2 hv hnames hnd
    exact ⟨⟨none, h⟩, fun _ => h⟩

/-- C1 counterexample: the claim quantifies over every numeric base, but the
remainder is always tagged with a literal "0x" while its digits are rendered
in the requested base, so for base 10 the Access value 16 formats to "0x16",
which parses back as 22, not 16. -/
theorem C1_flags_roundtrip_counterexample :
    enum.ParseUintFlags enum.accessEnum
        (enum.StringUintFlags 16 enum.accessEnum 10) true = .ok (22, none) ∧
      (22 : Nat) ≠ 16 := by decide

/-- C1 witness: the Access example round-trips 0x106 at base 16 without error. -/
theorem C1_flags_roundtrip_base16_witness :
    enum.ParseUintFlags enum.accessEnum
      (enum.StringUintFlags 262 enum.accessEnum 16) true = .ok (262, none) :=
  (C1_flags_roundtrip_base16 enum.accessEnum 262 true (by decide) (by decide) (by decide)
    (by decide) (by decide)).2 (Or.inl (by decide))

/-- C2: for an integer-typed enum, a value carried by no symbol formats to its
decimal rendering, and lenient scalar parsing of that text returns exactly the
original value, for either case rule. -/
theorem C2_scalar_roundtrip (et : enum.EnumType Int) (v : Int) (ci : Bool)
    (hbits1 : 1 ≤ et.bits) (hbits2 : et.bits ≤ 64)
    (hsig : et.signed = true →
      -((2 ^ (et.bits - 1) : Nat) : Int) ≤ v ∧ v < ((2 ^ (et.bits - 1) : Nat) : Int))
    (huns : et.signed = false → 0 ≤ v ∧ v < ((2 ^ et.bits : Nat) : Int))
    (hnames : ∀ m ∈ et.methods, isExportedName m.name = true)
    (hnoval : ∀ p ∈ et.symbols, p.2 ≠ v) :
    enum.ParseInt et (enum.StringInt v et) ci false = .ok (some v, none) := by
  rw [StringInt_no_match et v hnoval]
  obtain ⟨c, rest, heq, hc⟩ := sprintfInt_head v
  have hfm : enum.findMethod et (fmt.sprintfInt v) ci = none := by
    rw [heq]
    exact findMethod_none_of_head_small et hnames hc ci
  rw [ParseInt_not_found_lenient hfm]
  cases hsgn : et.signed with
  | true =>
    rw [if_pos rfl]
    rw [goParseInt_sprintf hbits1 hbits2 (hsig hsgn).1 (hsig hsgn).2]
  | false =>
    rw [if_neg (by simp)]
    rw [goParseUint_sprintf hbits1 hbits2 (huns hsgn).1 (huns hsgn).2]
    dsimp only
    rw [Int.toNat_of_nonneg (huns hsgn).1]

/-- C2 witness: Color (an int16 enum) formats 123 — which no symbol carries —
to "123", and lenient parsing returns 123. -/
theorem C2_scalar_roundtrip_witness :
    enum.ParseInt enum.colorEnum (enum.StringInt 123 enum.colorEnum) true false =
      .ok (some 123, none) :=
  C2_scalar_roundtrip enum.colorEnum 123 true (by decide) (by decide)
    (fun _ => ⟨by decide, by decide⟩) (fun h => absurd h (by decide)) (by decide) (by decide)

/-- C3 (amended): for non-zero values `StringUintFlags` emits exactly the names
of the symbols with non-zero value whose bits are all present in the value,
comma-and-space separated in enumeration order (zero-valued symbols skipped),
and, when the matched bits do not cover the value, appends value XOR
matched-bits rendered in the given base behind the fixed literal "0x" tag —
the same tag for every base, not a base-specific prefix. -/
theorem C3_flags_format (et : enum.EnumType Nat) (v : Nat) (base : Nat) (hv : v ≠ 0)
    (hn : ∀ p ∈ et.symbols, p.1 ≠ []) :
    enum.StringUintFlags v et base =
      enum.joinCS ((enum.matchedSyms v et.symbols).map Prod.fst ++
        (if enum.matchedBits v et.symbols = v then []
         else ['0' :: 'x' :: strconv.FormatUint (v ^^^ enum.matchedBits v et.symbols) base])) :=
  StringUintFlags_pos et v hv base hn

/-- C3 counterexample: at base 10 the appended remainder is not "rendered with
a prefix indicating that base": formatting the Access value 16 at base 10
yields "0x16" — decimal digits behind the hexadecimal indicator — rather than
the unprefixed decimal rendering "16". -/
theorem C3_flags_format_counterexample :
    enum.StringUintFlags 16 enum.accessEnum 10 = ('0' :: 'x' :: '1' :: '6' :: []) ∧
      ('0' :: 'x' :: '1' :: '6' :: [] : Str) ≠ ('1' :: '6' :: []) := by decide

/-- C3 witness: the Access value 0x106 at base 16 formats to
"Execute, Write, 0x100". -/
theorem C3_flags_format_witness :
    enum.StringUintFlags 262 enum.accessEnum 16 = "Execute, Write, 0x100".toList :=
  (C3_flags_format enum.accessEnum 262 16 (by decide) (by decide)).trans (by decide)

/-- C4: `StringUintFlags` of 0 returns the name of the first zero-valued symbol
in enumeration order, alone — enumeration stops at that symbol, no other name
and no numeric remainder is appended — and the empty string when no symbol has
value 0. -/
theorem C4_flags_zero (et : enum.EnumType Nat) (base : Nat) :
    enum.StringUintFlags 0 et base =
      match et.symbols.find? (fun p => p.2 == 0) with
      | some p => p.1
      | none => [] :=
  StringUintFlags_zero et base

/-- C7: the case-insensitive scan picks the first method in enumeration order
whose lower-cased name equals the lower-cased input; in particular, with a
symbol named "Red" and pairwise-distinct lower-cased method names, parsing
"red" or "RED" case-insensitively returns the same value as parsing "Red" with
exact matching, whatever the strictness flag. -/
theorem C7_case_insensitive_lookup :
    (∀ {α : Type} (methods : List (enum.Method α)) (key : Str),
      enum.findMethodCI methods key =
        methods.find? (fun m => strings.ToLower m.name == key)) ∧
    (∀ (et : enum.EnumType Int) (v : Int) (s1 s2 s3 : Bool),
      enum.Method.symbol ("Red".toList) v ∈ et.methods →
      ((et.methods.map enum.Method.name).map strings.ToLower).Nodup →
      enum.ParseInt et ("red".toList) true s1 = .ok (some v, none) ∧
        enum.ParseInt et ("RED".toList) true s2 = .ok (some v, none) ∧
        enum.ParseInt et ("Red".toList) false s3 = .ok (some v, none)) := by
  constructor
  · intro α methods key
    induction methods with
    | nil => rfl
    | cons m rest ih =>
      unfold enum.findMethodCI
      by_cases hm : strings.ToLower m.name = key
      · rw [if_pos hm, List.find?_cons_of_pos _ (by simpa using hm)]
      · rw [if_neg hm, List.find?_cons_of_neg _ (by simpa using hm)]
        exact ih
  · intro et v s1 s2 s3 hmem hnd
    have hred : enum.findMethodCI et.methods (strings.ToLower ("Red".toList)) =
        some (.symbol ("Red".toList) v) := findMethodCI_of_mem hnd hmem
    refine ⟨?_, ?_, ?_⟩
    · have h : enum.findMethod et ("red".toList) true =
          some (.symbol ("Red".toList) v) := by
        show enum.findMethodCI et.methods (strings.ToLower ("red".toList)) = _
        rw [show strings.ToLower ("red".toList) = strings.ToLower ("Red".toList) by decide]
        exact hred
      exact ParseInt_found h rfl s1
    · have h : enum.findMethod et ("RED".toList) true =
          some (.symbol ("Red".toList) v) := by
        show enum.findMethodCI et.methods (strings.ToLower ("RED".toList)) = _
        rw [show strings.ToLower ("RED".toList) = strings.ToLower ("Red".toList) by decide]
        exact hred
      exact ParseInt_found h rfl s2
    · have h : enum.findMethod et ("Red".toList) false =
          some (.symbol ("Red".toList) v) := by
        show enum.MethodByName et.methods ("Red".toList) = _
        exact MethodByName_of_mem hnd.of_map hmem
      exact ParseInt_found h rfl s3

/-- C7 witness: with the Color enum, "red" and "RED" parsed case-insensitively
and "Red" parsed exactly all yield the value 1. -/
theorem C7_case_insensitive_lookup_witness :
    enum.ParseInt enum.colorEnum ("red".toList) true false = .ok (some 1, none) ∧
      enum.ParseInt enum.colorEnum ("RED".toList) true false = .ok (some 1, none) ∧
      enum.ParseInt enum.colorEnum ("Red".toList) false false = .ok (some 1, none) :=
  C7_case_insensitive_lookup.2 enum.colorEnum 1 false false false (by decide) (by decide)

/-- C8: `GetSymbols` invokes the callback once per symbol in enumeration order:
a callback that never asks to stop is folded over the full symbol list (every
symbol visited exactly once, in order), and a callback that continues through
a prefix and stops at the next symbol yields the state right after that
symbol, for every tail — no later symbol is visited. -/
theorem C8_enumerate_symbols {α σ : Type} (et : enum.EnumType α)
    (f : σ → Str → α → σ × Bool) (st : σ) :
    (enum.runContinues f et.symbols st = true →
      enum.GetSymbols et f st = et.symbols.foldl (fun s m => (f s m.1 m.2).1) st) ∧
    (∀ pre x post, et.symbols = pre ++ x :: post →
      enum.runContinues f pre st = true →
      (f (pre.foldl (fun s m => (f s m.1 m.2).1) st) x.1 x.2).2 = true →
      enum.GetSymbols et f st = (f (pre.foldl (fun s m => (f s m.1 m.2).1) st) x.1 x.2).1) := by
  constructor
  · intro h
    rw [GetSymbols_eq_symRun]
    exact symRun_noStop f et.symbols st h
  · intro pre x post hsyms hrun hstop
    rw [GetSymbols_eq_symRun, hsyms]
    exact symRun_stopAt f pre x post st hrun hstop

/-- C8 witness: a name-collecting callback on the Color enum that stops at
"Green" sees exactly "Blue" then "Green" and never visits "None" or "Red". -/
theorem C8_enumerate_symbols_witness :
    enum.GetSymbols enum.colorEnum
      (fun (acc : List Str) n (_ : Int) => (acc ++ [n], n == "Green".toList)) [] =
      ["Blue".toList, "Green".toList] :=
  ((C8_enumerate_symbols enum.colorEnum
      (fun (acc : List Str) n (_ : Int) => (acc ++ [n], n == "Green".toList)) []).2
    [("Blue".toList, 3)] ("Green".toList, 2) [("None".toList, 0), ("Red".toList, 1)]
    rfl (by decide) (by decide)).trans (by decide)

/-- C9: flag parsing of the empty string returns 0 together with an error whose
offending text is the single empty component, for either case rule and even
when the type declares a zero-valued symbol; consequently, on a type with no
zero-valued symbol, flag formatting of 0 produces the empty string, whose
parse fails the same way. -/
theorem C9_parse_empty (et : enum.EnumType Nat) (ci : Bool) (base : Nat)
    (hnames : ∀ m ∈ et.methods, isExportedName m.name = true) :
    enum.ParseUintFlags et [] ci = .ok (0, some ⟨[], et.name⟩) ∧
      ((∀ p ∈ et.symbols, p.2 ≠ 0) →
        enum.StringUintFlags 0 et base = [] ∧
          enum.ParseUintFlags et (enum.StringUintFlags 0 et base) ci =
            .ok (0, some ⟨[], et.name⟩)) := by
  refine ⟨ParseUintFlags_empty et ci hnames, fun hz => ?_⟩
  have hfmt : enum.StringUintFlags 0 et base = [] := by
    rw [StringUintFlags_zero et base]
    cases hf : et.symbols.find? (fun q => q.2 == 0) with
    | none => rfl
    | some p =>
      have hps := List.find?_some hf
      have hp := List.mem_of_find?_eq_some hf
      simp only [beq_iff_eq] at hps
      exact absurd hps (hz p hp)
  exact ⟨hfmt, by rw [hfmt]; exact ParseUintFlags_empty et ci hnames⟩

/-- C9 witness: the empty string fails on Access (which has the zero-valued
symbol None), and formatting 0 on a zero-symbol-free flags type gives the
empty string whose parse fails with the empty component. -/
theorem C9_parse_empty_witness :
    enum.ParseUintFlags enum.accessEnum [] true = .ok (0, some ⟨[], "Access".toList⟩) ∧
      enum.ParseUintFlags enum.flagsNoZero
          (enum.StringUintFlags 0 enum.flagsNoZero 16) false =
        .ok (0, some ⟨[], "Flags".toList⟩) :=
  ⟨(C9_parse_empty enum.accessEnum true 16 (by decide)).1,
    ((C9_parse_empty enum.flagsNoZero false 16 (by decide)).2 (by decide)).2⟩

